import Mathlib

/-!
# Shallow embedding of `hal.cpp` (LMIC 1.6 Arduino hardware abstraction layer)

The translation unit keeps three pieces of static state (`overflow` inside
`hal_ticks`, the nesting counter `irqlevel`, the array `dio_states`) and talks
to the Arduino platform through `micros`, `delay`, `delayMicroseconds`,
`pinMode`, `digitalWrite`, `digitalRead`, `SPI.begin`, `noInterrupts`,
`interrupts` and the callback `radio_irq_handler`.  All of that is made
explicit in `HalState`; every C
function becomes a function on `HalState`.  Machine integers are natural
numbers reduced modulo the width of their C type.
-/

namespace Hal

/-! ## Platform calls and state -/

/-- Calls that leave the translation unit, in the order they are issued. -/
inductive Call where
  | noInterrupts
  | interrupts
  | digitalRead (pin : Nat)
  | digitalWrite (pin : Nat) (val : Nat)
  | pinMode (pin : Nat) (mode : Nat)
  | radio_irq_handler (dio : Nat)
  | delay (ms : Nat)
  | delayMicroseconds (us : Nat)
  | SPI_begin
  | hal_failed
  deriving DecidableEq, Repr

/-- Modelled from the spec: the declaration of `irqlevel` is not part of
`hal.cpp`; the spec describes it as one integer counter that starts at 0, so
it is an unbounded integer here.  The other fields are the statics of
`hal.cpp` (`overflow` is a `uint8_t`, `dio_states` a `bool` array) and the
platform state the functions read or change: the 32-bit microsecond counter
returned by `micros()`, the hardware interrupt-enable flag and the trace of
platform calls issued so far (oldest first). -/
structure HalState where
  overflow : Nat
  irqlevel : Int
  dio_states : List Bool
  micros : Nat
  irq_enabled : Bool
  trace : List Call
  deriving DecidableEq, Repr

/-- Modelled from the spec: `US_PER_OSTICK` is defined outside `hal.cpp`; the
tick is the microsecond count scaled down by the power of two
`US_PER_OSTICK_EXPONENT`, written `E` throughout. -/
def US_PER_OSTICK (E : Nat) : Nat := 2 ^ E

/-- The two's-complement reading of a 32-bit word, the cast `(s4_t)`. -/
def toS4 (x : Nat) : Int :=
  if x % 2 ^ 32 < 2 ^ 31 then (x % 2 ^ 32 : Nat) else ((x % 2 ^ 32 : Nat) : Int) - 2 ^ 32

/-! ## The tick clock -/

/-- The function `hal_ticks`: returns the tick value and updates `overflow`.
`micros()` is a `uint32_t`, `msb`, `mask` and `overflow` are `uint8_t`. -/
def hal_ticks (E : Nat) (s : HalState) : Nat × HalState :=
  let scaled := (s.micros % 2 ^ 32) >>> E
  let msb := (scaled >>> 24) % 256
  let mask := (1 <<< (7 - E)) % 256
  let overflow := (s.overflow + ((msb ^^^ s.overflow) &&& mask)) % 256
  (scaled ||| ((overflow <<< 24) % 2 ^ 32), { s with overflow := overflow })

/-- The function `delta_time`: `(s4_t)(time - hal_ticks())` on `u4_t`. -/
def delta_time (E : Nat) (time : Nat) (s : HalState) : Int × HalState :=
  let r := hal_ticks E s
  (toS4 ((time % 2 ^ 32 + 2 ^ 32 - r.1) % 2 ^ 32), r.2)

/-- The function `hal_checkTimer`: the `u1_t` value of `delta_time(t) <= 0`. -/
def hal_checkTimer (E : Nat) (targettime : Nat) (s : HalState) : Nat × HalState :=
  let r := delta_time E targettime s
  (if r.1 ≤ 0 then 1 else 0, r.2)

/-- Platform `delay(ms)`: the microsecond counter advances by `1000 * ms`. -/
def delay (ms : Nat) (s : HalState) : HalState :=
  { s with micros := (s.micros + 1000 * ms) % 2 ^ 32, trace := s.trace ++ [Call.delay ms] }

/-- Platform `delayMicroseconds(us)`: the counter advances by `us`. -/
def delayMicroseconds (us : Nat) (s : HalState) : HalState :=
  { s with micros := (s.micros + us) % 2 ^ 32, trace := s.trace ++ [Call.delayMicroseconds us] }

/-- The `while` loop of `hal_waitUntil` with `chunk = 16000 / US_PER_OSTICK`.
The first argument bounds the number of iterations; `none` means the bound
was reached with the loop condition still true. -/
def waitLoop (chunk : Int) : Nat → Int → HalState → Option (Int × HalState)
  | fuel, delta, s =>
    if delta > chunk then
      match fuel with
      | 0 => none
      | f + 1 => waitLoop chunk f (delta - chunk) (delay 16 s)
    else some (delta, s)

/-- The function `hal_waitUntil`.  The loop is run with `delta` iterations
allowed, which it never needs when `chunk` is positive; `none` stands for a
loop that does not end. -/
def hal_waitUntil (E : Nat) (time : Nat) (s : HalState) : Option HalState :=
  let r := delta_time E time s
  match waitLoop ((16000 / US_PER_OSTICK E : Nat) : Int) r.1.toNat r.1 r.2 with
  | none => none
  | some (delta, s1) =>
    some (if delta > 0 then delayMicroseconds (delta * (US_PER_OSTICK E : Int)).toNat s1 else s1)

/-- Specification side: the coarse chunk `16000 / 2 ^ E`, in ticks. -/
def specChunk (E : Nat) : Int := 16000 / 2 ^ E

/-- Specification side: the number `ceil(delta / chunk) - 1` of coarse sleeps. -/
def specCoarseSleeps (E : Nat) (delta : Int) : Nat :=
  (⌈(delta : ℚ) / (specChunk E : ℚ)⌉ - 1).toNat

/-- Specification side: the argument `(delta - n * chunk) * 2 ^ E` of the fine sleep. -/
def specFineSleep (E : Nat) (delta : Int) : Int :=
  (delta - specCoarseSleeps E delta * specChunk E) * 2 ^ E

/-- Results of consecutive `hal_ticks` calls from state `s`, the call number
`i` being made while `micros()` reads `rs[i]`. -/
def ticksSeq (E : Nat) : HalState → List Nat → List Nat
  | _, [] => []
  | s, r :: rs =>
    (hal_ticks E { s with micros := r }).1 :: ticksSeq E (hal_ticks E { s with micros := r }).2 rs

/-- Specification side: continues the unwrapped microsecond count `T`, last
reading `r`, over further readings; each reading adds its step modulo `2 ^ 32`. -/
def unwrapFrom (T r : Nat) : List Nat → List Nat
  | [] => []
  | r1 :: rs => (T + (r1 + 2 ^ 32 - r) % 2 ^ 32) :: unwrapFrom (T + (r1 + 2 ^ 32 - r) % 2 ^ 32) r1 rs

/-- Specification side: the unwrapped microsecond counts `T_0 = r_0`,
`T_(i+1) = T_i + ((r_(i+1) - r_i) mod 2 ^ 32)` of a sequence of readings. -/
def unwrapped : List Nat → List Nat
  | [] => []
  | r0 :: rs => r0 :: unwrapFrom r0 r0 rs

/-- Every step between consecutive readings, taken modulo `2 ^ 32`, is below `bound`. -/
def StepsBelow (bound : Nat) : List Nat → Prop
  | a :: b :: rest => (b + 2 ^ 32 - a) % 2 ^ 32 < bound ∧ StepsBelow bound (b :: rest)
  | _ => True

instance decStepsBelow (bound : Nat) : ∀ rs, Decidable (StepsBelow bound rs)
  | [] => isTrue trivial
  | [_] => isTrue trivial
  | a :: b :: rest =>
    have := decStepsBelow bound (b :: rest)
    inferInstanceAs (Decidable ((b + 2 ^ 32 - a) % 2 ^ 32 < bound ∧ StepsBelow bound (b :: rest)))

/-- Consecutive tick values never go back: `(s4_t)(t_(i+1) - t_i) >= 0`. -/
def NonDecreasingMod32 : List Nat → Prop
  | a :: b :: rest => 0 ≤ toS4 ((b + 2 ^ 32 - a) % 2 ^ 32) ∧ NonDecreasingMod32 (b :: rest)
  | _ => True

instance decNonDecreasingMod32 : ∀ ts, Decidable (NonDecreasingMod32 ts)
  | [] => isTrue trivial
  | [_] => isTrue trivial
  | a :: b :: rest =>
    have := decNonDecreasingMod32 (b :: rest)
    inferInstanceAs (Decidable (0 ≤ toS4 ((b + 2 ^ 32 - a) % 2 ^ 32) ∧ NonDecreasingMod32 (b :: rest)))

/-- The bits of `overflow` below the seam bit are zero, as the comment in
`hal_ticks` says of every value the byte takes. -/
def OverflowOK (E : Nat) (ov : Nat) : Prop := ov < 256 ∧ ov % 2 ^ (7 - E) = 0

instance (E ov : Nat) : Decidable (OverflowOK E ov) :=
  inferInstanceAs (Decidable (ov < 256 ∧ ov % 2 ^ (7 - E) = 0))

/-! ## Pin polling and interrupt nesting -/

def LMIC_UNUSED_PIN : Nat := 0xff

/-- Modelled from the spec: `NUM_DIO` is defined outside `hal.cpp`; the spec
bounds the monitored lines by three and `hal_init` names the slots `dio[0]`,
`dio[1]` and `dio[2]`. -/
def NUM_DIO : Nat := 3

/-- The pin map `lmic_pins` supplied by the application, with the fields
`hal.cpp` reads (`u1_t` pin numbers, `dio` holding `NUM_DIO` entries). -/
structure lmic_pinmap where
  nss : Nat
  rxtx : Nat
  rst : Nat
  dio : List Nat
  deriving DecidableEq, Repr

/-- Platform `noInterrupts()`. -/
def noInterrupts (s : HalState) : HalState :=
  { s with irq_enabled := false, trace := s.trace ++ [Call.noInterrupts] }

/-- Platform `interrupts()`. -/
def interrupts (s : HalState) : HalState :=
  { s with irq_enabled := true, trace := s.trace ++ [Call.interrupts] }

/-- Body of the `for` loop of `hal_io_check` for slot `i`; `read i` is the
level that `digitalRead(lmic_pins.dio[i])` returns in this pass.  The callback
`radio_irq_handler` is external and only recorded. -/
def io_check_slot (pins : lmic_pinmap) (read : Nat → Bool) (s : HalState) (i : Nat) : HalState :=
  if pins.dio.getD i LMIC_UNUSED_PIN = LMIC_UNUSED_PIN then s
  else
    let s1 := { s with trace := s.trace ++ [Call.digitalRead (pins.dio.getD i LMIC_UNUSED_PIN)] }
    if s1.dio_states.getD i false ≠ read i then
      let s2 := { s1 with dio_states := s1.dio_states.set i (!(s1.dio_states.getD i false)) }
      if s2.dio_states.getD i false then
        { s2 with trace := s2.trace ++ [Call.radio_irq_handler i] }
      else s2
    else s1

/-- The function `hal_io_check`: one poll pass over the slots `0 .. NUM_DIO - 1`. -/
def hal_io_check (pins : lmic_pinmap) (read : Nat → Bool) (s : HalState) : HalState :=
  (List.range NUM_DIO).foldl (io_check_slot pins read) s

/-- The function `hal_disableIRQs`. -/
def hal_disableIRQs (s : HalState) : HalState :=
  let s1 := noInterrupts s
  { s1 with irqlevel := s1.irqlevel + 1 }

/-- The function `hal_enableIRQs`: `if (--irqlevel == 0) { interrupts(); hal_io_check(); }`. -/
def hal_enableIRQs (pins : lmic_pinmap) (read : Nat → Bool) (s : HalState) : HalState :=
  let s1 := { s with irqlevel := s.irqlevel - 1 }
  if s1.irqlevel = 0 then hal_io_check pins read (interrupts s1) else s1

/-- The state after `n` calls of `hal_disableIRQs`. -/
def disableN : Nat → HalState → HalState
  | 0, s => s
  | n + 1, s => hal_disableIRQs (disableN n s)

/-- The state after `k` calls of `hal_enableIRQs`; call number `j` (from 0)
reads the pin levels `reads j`. -/
def enableN (pins : lmic_pinmap) (reads : Nat → Nat → Bool) : Nat → HalState → HalState
  | 0, s => s
  | k + 1, s => hal_enableIRQs pins (reads k) (enableN pins reads k s)

/-- One call of the nesting guard; an enable carries the pin levels its poll
pass would read. -/
inductive IrqCall where
  | disable
  | enable (read : Nat → Bool)

def IrqCall.isDisable : IrqCall → Bool
  | .disable => true
  | .enable _ => false

def IrqCall.isEnable : IrqCall → Bool
  | .disable => false
  | .enable _ => true

/-- Recognises a `digitalRead` call in the trace. -/
def Call.isDigitalRead : Call → Bool
  | .digitalRead _ => true
  | _ => false

/-- Runs one guard call. -/
def irqStep (pins : lmic_pinmap) (s : HalState) : IrqCall → HalState
  | .disable => hal_disableIRQs s
  | .enable read => hal_enableIRQs pins read s

/-- Runs a sequence of guard calls, first call first. -/
def runIrq (pins : lmic_pinmap) (calls : List IrqCall) (s : HalState) : HalState :=
  calls.foldl (irqStep pins) s

/-- No initial segment of the call sequence has more enables than disables. -/
def NeverMoreEnables (calls : List IrqCall) : Prop :=
  ∀ k, (calls.take k).countP IrqCall.isEnable ≤ (calls.take k).countP IrqCall.isDisable

/-- The overflow byte left by each of the consecutive `hal_ticks` calls of
`ticksSeq`. -/
def overflowSeq (E : Nat) : HalState → List Nat → List Nat
  | _, [] => []
  | s, r :: rs =>
    (hal_ticks E { s with micros := r }).2.overflow
      :: overflowSeq E (hal_ticks E { s with micros := r }).2 rs

/-- The values `overflow` can hold: 0 at start, then whatever a `hal_ticks`
call leaves, at any reading. -/
inductive ReachableOverflow (E : Nat) : Nat → Prop where
  | init : ReachableOverflow E 0
  | step (s : HalState) : ReachableOverflow E s.overflow →
      ReachableOverflow E (hal_ticks E s).2.overflow

/-- The state after `j` poll passes; pass number `m` (from 0) reads the
levels `reads m`. -/
def pollN (pins : lmic_pinmap) (reads : Nat → Nat → Bool) : Nat → HalState → HalState
  | 0, s => s
  | j + 1, s => hal_io_check pins (reads j) (pollN pins reads j s)

/-- The platform calls issued by poll pass number `j`: what the pass adds to
the trace. -/
def passCalls (pins : lmic_pinmap) (reads : Nat → Nat → Bool) (s : HalState) (j : Nat) :
    List Call :=
  (pollN pins reads (j + 1) s).trace.drop (pollN pins reads j s).trace.length

/-- Specification side: the level read for slot `i` at the pass before pass
`j`, the stored initial value `false` when `j = 0`. -/
def previousLevel (reads : Nat → Nat → Bool) (j i : Nat) : Bool :=
  match j with
  | 0 => false
  | m + 1 => reads m i

/-! ## Initialisation and pin drivers -/

/-- Arduino pin mode `INPUT`. -/
def INPUT : Nat := 0

/-- Arduino pin mode `OUTPUT`. -/
def OUTPUT : Nat := 1

/-- Platform `pinMode(pin, mode)`. -/
def pinMode (pin mode : Nat) (s : HalState) : HalState :=
  { s with trace := s.trace ++ [Call.pinMode pin mode] }

/-- Platform `digitalWrite(pin, val)`. -/
def digitalWrite (pin val : Nat) (s : HalState) : HalState :=
  { s with trace := s.trace ++ [Call.digitalWrite pin val] }

/-- Platform `SPI.begin()`. -/
def SPI_begin (s : HalState) : HalState :=
  { s with trace := s.trace ++ [Call.SPI_begin] }

/-- The function `hal_failed`: its body in `hal.cpp` is empty, so it returns
to its caller; the call is recorded in the trace. -/
def hal_failed (s : HalState) : HalState :=
  { s with trace := s.trace ++ [Call.hal_failed] }

/-- Modelled from the spec: the macro `ASSERT` is defined outside `hal.cpp`;
it invokes the failure hook `hal_failed` when its condition is false. -/
def ASSERT (cond : Bool) (s : HalState) : HalState :=
  if cond then s else hal_failed s

/-- The function `hal_init`. -/
def hal_init (pins : lmic_pinmap) (s : HalState) : HalState :=
  let s1 := ASSERT (pins.nss != LMIC_UNUSED_PIN) s
  let s2 := ASSERT (pins.dio.getD 0 LMIC_UNUSED_PIN != LMIC_UNUSED_PIN) s1
  let s3 := ASSERT (pins.dio.getD 1 LMIC_UNUSED_PIN != LMIC_UNUSED_PIN
    || pins.dio.getD 2 LMIC_UNUSED_PIN != LMIC_UNUSED_PIN) s2
  let s4 := pinMode pins.nss OUTPUT s3
  let s5 := if pins.rxtx != LMIC_UNUSED_PIN then pinMode pins.rxtx OUTPUT s4 else s4
  let s6 := if pins.rst != LMIC_UNUSED_PIN then pinMode pins.rst OUTPUT s5 else s5
  let s7 := pinMode (pins.dio.getD 0 LMIC_UNUSED_PIN) INPUT s6
  let s8 := if pins.dio.getD 1 LMIC_UNUSED_PIN != LMIC_UNUSED_PIN
    then pinMode (pins.dio.getD 1 LMIC_UNUSED_PIN) INPUT s7 else s7
  let s9 := if pins.dio.getD 2 LMIC_UNUSED_PIN != LMIC_UNUSED_PIN
    then pinMode (pins.dio.getD 2 LMIC_UNUSED_PIN) INPUT s8 else s8
  SPI_begin s9

/-- The function `hal_pin_rxtx`. -/
def hal_pin_rxtx (pins : lmic_pinmap) (val : Nat) (s : HalState) : HalState :=
  if pins.rxtx != LMIC_UNUSED_PIN then digitalWrite pins.rxtx val s else s

/-- The function `hal_pin_rst`. -/
def hal_pin_rst (pins : lmic_pinmap) (val : Nat) (s : HalState) : HalState :=
  if pins.rst == LMIC_UNUSED_PIN then s
  else if val == 0 || val == 1 then digitalWrite pins.rst val (pinMode pins.rst OUTPUT s)
  else pinMode pins.rst INPUT s

/-- The three mandatory-pin preconditions asserted by `hal_init`. -/
def PinsValid (pins : lmic_pinmap) : Prop :=
  pins.nss ≠ LMIC_UNUSED_PIN ∧ pins.dio.getD 0 LMIC_UNUSED_PIN ≠ LMIC_UNUSED_PIN ∧
  (pins.dio.getD 1 LMIC_UNUSED_PIN ≠ LMIC_UNUSED_PIN
    ∨ pins.dio.getD 2 LMIC_UNUSED_PIN ≠ LMIC_UNUSED_PIN)

instance (pins : lmic_pinmap) : Decidable (PinsValid pins) :=
  inferInstanceAs (Decidable (_ ∧ _ ∧ (_ ∨ _)))

/-- The call is a pin primitive (`pinMode`, `digitalWrite`, `digitalRead`)
on pin `p`. -/
def Call.usesPin (p : Nat) : Call → Bool
  | .pinMode q _ => q == p
  | .digitalWrite q _ => q == p
  | .digitalRead q => q == p
  | _ => false

/-! ## Bit-level facts about the overflow update -/

theorem and_two_pow_eq (x k : Nat) : x &&& 2 ^ k = if x.testBit k then 2 ^ k else 0 := by
  apply Nat.eq_of_testBit_eq
  intro i
  by_cases h : x.testBit k
  · simp only [h, if_true, Nat.testBit_and, Nat.testBit_two_pow]
    by_cases hki : k = i
    · subst hki; simp [h]
    · simp [hki]
  · simp only [h, Nat.testBit_and, Nat.testBit_two_pow]
    by_cases hki : k = i
    · subst hki; simp [h]
    · simp [hki]

theorem mask_eq (E : Nat) : (1 <<< (7 - E)) % 256 = 2 ^ (7 - E) := by
  rw [Nat.one_shiftLeft]
  apply Nat.mod_eq_of_lt
  calc 2 ^ (7 - E) ≤ 2 ^ 7 := Nat.pow_le_pow_right (by norm_num) (by omega)
    _ < 256 := by norm_num

/-- Bit `7 - E` of the most significant byte of the scaled reading is bit 31 of the reading. -/
theorem testBit_msb (E r : Nat) (hE : E < 8) :
    ((r >>> E >>> 24) % 256).testBit (7 - E) = r.testBit 31 := by
  have h256 : (256 : Nat) = 2 ^ 8 := by norm_num
  rw [h256, Nat.testBit_mod_two_pow, Nat.testBit_shiftRight, Nat.testBit_shiftRight]
  have h1 : 7 - E < 8 := by omega
  have h2 : E + (24 + (7 - E)) = 31 := by omega
  simp [h1, h2]

/-- The value added to `overflow`: the mask when bit 31 of the reading differs
from the seam bit of `overflow`, zero otherwise. -/
theorem seam_increment (E r ov : Nat) (hE : E < 8) :
    (((r >>> E >>> 24) % 256) ^^^ ov) &&& ((1 <<< (7 - E)) % 256)
      = if r.testBit 31 = ov.testBit (7 - E) then 0 else 2 ^ (7 - E) := by
  rw [mask_eq, and_two_pow_eq, Nat.testBit_xor, testBit_msb E r hE]
  cases r.testBit 31 <;> cases ov.testBit (7 - E) <;> simp

theorem testBit_quot_seam (q k : Nat) (hk : k < 8) :
    ((q * 2 ^ k) % 256).testBit k = q.testBit 0 := by
  have h256 : (256 : Nat) = 2 ^ 8 := by norm_num
  rw [h256, Nat.testBit_mod_two_pow, Nat.mul_comm, Nat.testBit_mul_pow_two]
  simp [hk]

theorem testBit_zero_eq_iff (a b : Nat) : a.testBit 0 = b.testBit 0 ↔ a % 2 = b % 2 := by
  rw [Nat.testBit_to_div_mod, Nat.testBit_to_div_mod]
  simp only [pow_zero, Nat.div_one]
  rcases Nat.mod_two_eq_zero_or_one a with ha | ha <;>
    rcases Nat.mod_two_eq_zero_or_one b with hb | hb <;> simp [ha, hb]

theorem testBit_31_eq (T : Nat) : T.testBit 31 = (T / 2 ^ 31).testBit 0 := by
  rw [← Nat.shiftRight_eq_div_pow, Nat.testBit_shiftRight]

/-- Bit-level content of the return value: the stitched word is the low 32
bits of the unwrapped count divided by `2 ^ E`. -/
theorem stitch_eq (E T : Nat) (hE : E < 8) :
    ((T % 2 ^ 32) >>> E) ||| ((((T / 2 ^ 31 * 2 ^ (7 - E)) % 256) <<< 24) % 2 ^ 32)
      = T / 2 ^ E % 2 ^ 32 := by
  have h256 : (256 : Nat) = 2 ^ 8 := by norm_num
  apply Nat.eq_of_testBit_eq
  intro i
  rw [h256, ← Nat.shiftRight_eq_div_pow, ← Nat.shiftRight_eq_div_pow]
  simp only [Nat.testBit_or, Nat.testBit_shiftRight, Nat.testBit_mod_two_pow,
    Nat.testBit_shiftLeft, Nat.mul_comm _ (2 ^ (7 - E)), Nat.testBit_mul_pow_two]
  by_cases h32 : i < 32
  · by_cases hEi : E + i < 32
    · by_cases hb : T.testBit (E + i)
      · simp [h32, hEi, hb]
      · by_cases h24 : 24 ≤ i ∧ 7 - E ≤ i - 24
        · have : 31 + (i - 24 - (7 - E)) = E + i := by omega
          simp [h32, hEi, hb, this]
        · have : ¬ (i ≥ 24 ∧ i - 24 ≥ 7 - E) := h24
          simp [h32, hEi, hb]
          intro h1 _ h3
          omega
    · have h1 : 24 ≤ i := by omega
      have h2 : 7 - E ≤ i - 24 := by omega
      have h3 : i - 24 < 8 := by omega
      have h4 : 31 + (i - 24 - (7 - E)) = E + i := by omega
      simp [h32, hEi, h1, h2, h3, h4]
  · have : ¬ E + i < 32 := by omega
    simp [h32, this]

/-- Arithmetic reading of one `hal_ticks` call.  If `overflow` holds the
count `q` of half periods of `micros()` seen so far (shifted to the seam),
and the unwrapped microsecond count `T` agrees with the reading and lies in
half period `q` or `q + 1`, the call returns `T / 2 ^ E` modulo `2 ^ 32` and
stores the half period of `T`. -/
theorem hal_ticks_of_unwrapped (E : Nat) (hE : E < 8) (s : HalState) (T q : Nat)
    (hov : s.overflow = (q * 2 ^ (7 - E)) % 256)
    (hr : s.micros % 2 ^ 32 = T % 2 ^ 32)
    (hq : T / 2 ^ 31 = q ∨ T / 2 ^ 31 = q + 1) :
    hal_ticks E s
      = (T / 2 ^ E % 2 ^ 32, { s with overflow := (T / 2 ^ 31 * 2 ^ (7 - E)) % 256 }) := by
  have hk : 7 - E < 8 := by omega
  have hbit : (T % 2 ^ 32).testBit 31 = (T / 2 ^ 31).testBit 0 := by
    rw [Nat.testBit_mod_two_pow, testBit_31_eq]; simp
  have hnew : (s.overflow + (((((s.micros % 2 ^ 32) >>> E >>> 24) % 256) ^^^ s.overflow)
      &&& ((1 <<< (7 - E)) % 256))) % 256 = (T / 2 ^ 31 * 2 ^ (7 - E)) % 256 := by
    rw [seam_increment E _ _ hE, hr, hbit, hov, testBit_quot_seam q _ hk]
    rcases hq with h | h
    · rw [h]; simp
    · rw [h]
      have : ¬ ((q + 1).testBit 0 = q.testBit 0) := by
        rw [testBit_zero_eq_iff]; omega
      rw [if_neg this, Nat.add_mul, Nat.one_mul]
      simp [Nat.add_mod]
  unfold hal_ticks
  simp only [hnew]
  rw [hr, stitch_eq E T hE]

theorem hal_ticks_micros (E : Nat) (s : HalState) : (hal_ticks E s).2.micros = s.micros := rfl

theorem hal_ticks_frame (E : Nat) (s : HalState) :
    (hal_ticks E s).2 = { s with overflow := (hal_ticks E s).2.overflow } := rfl

theorem hal_ticks_lt (E : Nat) (s : HalState) : (hal_ticks E s).1 < 2 ^ 32 := by
  unfold hal_ticks
  simp only
  apply Nat.or_lt_two_pow
  · rw [Nat.shiftRight_eq_div_pow]
    exact lt_of_le_of_lt (Nat.div_le_self _ _) (Nat.mod_lt _ (by norm_num))
  · exact Nat.mod_lt _ (by norm_num)

/-- After a call the seam bit of `overflow` equals bit 31 of the reading,
whatever `overflow` held before. -/
theorem seam_after (E : Nat) (hE : E < 8) (s : HalState) :
    (s.micros % 2 ^ 32).testBit 31 = (hal_ticks E s).2.overflow.testBit (7 - E) := by
  have hk : 7 - E < 8 := by omega
  have h256 : (256 : Nat) = 2 ^ 8 := by norm_num
  show _ = ((s.overflow + (((((s.micros % 2 ^ 32) >>> E >>> 24) % 256) ^^^ s.overflow)
      &&& ((1 <<< (7 - E)) % 256))) % 256).testBit (7 - E)
  rw [seam_increment E _ _ hE]
  generalize s.micros % 2 ^ 32 = r
  by_cases h : r.testBit 31 = s.overflow.testBit (7 - E)
  · rw [if_pos h, h256, Nat.testBit_mod_two_pow]
    simp [h, hk]
  · rw [if_neg h, h256, Nat.testBit_mod_two_pow, Nat.add_comm, Nat.testBit_two_pow_add_eq]
    simp only [hk, decide_True, Bool.true_and]
    revert h
    cases r.testBit 31 <;> cases s.overflow.testBit (7 - E) <;> simp

/-- With the raw clock held at one reading a second `hal_ticks` call returns
the same value and leaves the state as the first call left it. -/
theorem hal_ticks_idem (E : Nat) (hE : E < 8) (s : HalState) :
    hal_ticks E (hal_ticks E s).2 = hal_ticks E s := by
  have hseam := seam_after E hE s
  have hlt : (hal_ticks E s).2.overflow < 256 := Nat.mod_lt _ (by norm_num)
  have hnew : ((hal_ticks E s).2.overflow + (((((s.micros % 2 ^ 32) >>> E >>> 24) % 256)
      ^^^ (hal_ticks E s).2.overflow) &&& ((1 <<< (7 - E)) % 256))) % 256
      = (hal_ticks E s).2.overflow := by
    rw [seam_increment E _ _ hE, if_pos hseam, Nat.add_zero, Nat.mod_eq_of_lt hlt]
  have h1 : (hal_ticks E (hal_ticks E s).2).2.overflow = (hal_ticks E s).2.overflow := hnew
  have h2 : (hal_ticks E (hal_ticks E s).2).1
      = ((s.micros % 2 ^ 32) >>> E) ||| (((hal_ticks E (hal_ticks E s).2).2.overflow <<< 24) % 2 ^ 32) := rfl
  have h3 : (hal_ticks E s).1
      = ((s.micros % 2 ^ 32) >>> E) ||| (((hal_ticks E s).2.overflow <<< 24) % 2 ^ 32) := rfl
  apply Prod.ext
  · rw [h2, h3, h1]
  · rw [hal_ticks_frame E (hal_ticks E s).2, h1]

/-! ## The tick value over a sequence of readings -/

theorem ticksSeq_unwrapFrom (E : Nat) (hE : E < 8) :
    ∀ (rs : List Nat) (s : HalState) (T : Nat),
      s.overflow = (T / 2 ^ 31 * 2 ^ (7 - E)) % 256 →
      (∀ r ∈ rs, r < 2 ^ 32) →
      StepsBelow (2 ^ 31) ((T % 2 ^ 32) :: rs) →
      ticksSeq E s rs = (unwrapFrom T (T % 2 ^ 32) rs).map (fun U => U / 2 ^ E % 2 ^ 32) := by
  intro rs
  induction rs with
  | nil => intro s T _ _ _; rfl
  | cons r1 rs ih =>
    intro s T hov hlt hsteps
    obtain ⟨hstep, hrest⟩ := hsteps
    have hr1 : r1 < 2 ^ 32 := hlt r1 (List.mem_cons_self _ _)
    have hmod : (T + (r1 + 2 ^ 32 - T % 2 ^ 32) % 2 ^ 32) % 2 ^ 32 = r1 := by omega
    have hq : (T + (r1 + 2 ^ 32 - T % 2 ^ 32) % 2 ^ 32) / 2 ^ 31 = T / 2 ^ 31
        ∨ (T + (r1 + 2 ^ 32 - T % 2 ^ 32) % 2 ^ 32) / 2 ^ 31 = T / 2 ^ 31 + 1 := by omega
    have hcall := hal_ticks_of_unwrapped E hE { s with micros := r1 }
      (T + (r1 + 2 ^ 32 - T % 2 ^ 32) % 2 ^ 32) (T / 2 ^ 31) hov
      (by show r1 % 2 ^ 32 = _; omega) hq
    have hih := ih (hal_ticks E { s with micros := r1 }).2
      (T + (r1 + 2 ^ 32 - T % 2 ^ 32) % 2 ^ 32) (by rw [hcall])
      (fun r hr => hlt r (List.mem_cons_of_mem _ hr)) (by rw [hmod]; exact hrest)
    rw [hmod] at hih
    show (hal_ticks E { s with micros := r1 }).1
        :: ticksSeq E (hal_ticks E { s with micros := r1 }).2 rs = _
    rw [hih, hcall]
    rfl

theorem add_div_le_div_add (T d m : Nat) (hm : 0 < m) : (T + d) / m ≤ T / m + d := by
  apply Nat.le_of_lt_succ
  rw [Nat.div_lt_iff_lt_mul hm]
  have h1 : T < (T / m + 1) * m := by
    have := Nat.div_add_mod T m
    have := Nat.mod_lt T hm
    nlinarith
  have h2 : d ≤ d * m := Nat.le_mul_of_pos_right d hm
  nlinarith

/-- A state with well-formed `overflow` and any reading have an unwrapped
count that `hal_ticks` follows. -/
theorem exists_unwrapped (E : Nat) (hE : E < 8) (s : HalState) (hov : OverflowOK E s.overflow) :
    ∃ T, T % 2 ^ 32 = s.micros % 2 ^ 32 ∧
      hal_ticks E s
        = (T / 2 ^ E % 2 ^ 32, { s with overflow := (T / 2 ^ 31 * 2 ^ (7 - E)) % 256 }) := by
  obtain ⟨hlt, hlow⟩ := hov
  have hq : s.overflow = (s.overflow / 2 ^ (7 - E) * 2 ^ (7 - E)) % 256 := by
    rw [Nat.div_mul_cancel (Nat.dvd_of_mod_eq_zero hlow), Nat.mod_eq_of_lt hlt]
  generalize s.overflow / 2 ^ (7 - E) = q at hq
  by_cases hpar : q % 2 = s.micros % 2 ^ 32 / 2 ^ 31
  · refine ⟨2 ^ 31 * q + s.micros % 2 ^ 31, by omega, ?_⟩
    exact hal_ticks_of_unwrapped E hE s _ q hq (by omega) (by omega)
  · refine ⟨2 ^ 31 * (q + 1) + s.micros % 2 ^ 31, by omega, ?_⟩
    exact hal_ticks_of_unwrapped E hE s _ q hq (by omega) (by omega)

theorem nonDecreasing_unwrapFrom (E : Nat) :
    ∀ (rs : List Nat) (T : Nat),
      (∀ r ∈ rs, r < 2 ^ 32) →
      StepsBelow (2 ^ 31) ((T % 2 ^ 32) :: rs) →
      NonDecreasingMod32 ((T :: unwrapFrom T (T % 2 ^ 32) rs).map (fun U => U / 2 ^ E % 2 ^ 32)) := by
  intro rs
  induction rs with
  | nil => intro T _ _; trivial
  | cons r1 rs ih =>
    intro T hlt hsteps
    obtain ⟨hstep, hrest⟩ := hsteps
    have hr1 : r1 < 2 ^ 32 := hlt r1 (List.mem_cons_self _ _)
    have hmod : (T + (r1 + 2 ^ 32 - T % 2 ^ 32) % 2 ^ 32) % 2 ^ 32 = r1 := by omega
    have hle : T / 2 ^ E ≤ (T + (r1 + 2 ^ 32 - T % 2 ^ 32) % 2 ^ 32) / 2 ^ E :=
      Nat.div_le_div_right (Nat.le_add_right _ _)
    have hub := add_div_le_div_add T ((r1 + 2 ^ 32 - T % 2 ^ 32) % 2 ^ 32) (2 ^ E)
      (Nat.pos_pow_of_pos E (by norm_num))
    have hih := ih (T + (r1 + 2 ^ 32 - T % 2 ^ 32) % 2 ^ 32)
      (fun r hr => hlt r (List.mem_cons_of_mem _ hr)) (by rw [hmod]; exact hrest)
    rw [hmod] at hih
    refine ⟨?_, hih⟩
    show 0 ≤ toS4 (((T + (r1 + 2 ^ 32 - T % 2 ^ 32) % 2 ^ 32) / 2 ^ E % 2 ^ 32 + 2 ^ 32
      - T / 2 ^ E % 2 ^ 32) % 2 ^ 32)
    generalize T / 2 ^ E = a at hle hub
    generalize (T + (r1 + 2 ^ 32 - T % 2 ^ 32) % 2 ^ 32) / 2 ^ E = b at hle hub
    unfold toS4
    split <;> omega

/-- The comment "the remaining bits are always zero": `hal_ticks` keeps the
bits of `overflow` below the seam at zero, and the initial value 0 has none. -/
theorem hal_ticks_overflowOK (E : Nat) (hE : E < 8) (s : HalState)
    (hov : OverflowOK E s.overflow) :
    OverflowOK E 0 ∧ OverflowOK E (hal_ticks E s).2.overflow := by
  obtain ⟨T, _, hcall⟩ := exists_unwrapped E hE s hov
  refine ⟨⟨by norm_num, Nat.zero_mod _⟩, ?_⟩
  rw [hcall]
  refine ⟨Nat.mod_lt _ (by norm_num), ?_⟩
  show (T / 2 ^ 31 * 2 ^ (7 - E)) % 256 % 2 ^ (7 - E) = 0
  have hdvd : 2 ^ (7 - E) ∣ 256 := by
    have : (256 : Nat) = 2 ^ 8 := by norm_num
    rw [this]
    exact Nat.pow_dvd_pow 2 (by omega)
  rw [Nat.mod_mod_of_dvd _ hdvd]
  exact Nat.mul_mod_left _ _

/-! ## Claims about the tick clock -/

/-- C1: for `0 < E < 8`, starting from `overflow = 0`, over every sequence of
32-bit readings whose steps modulo `2 ^ 32` are all below `2 ^ 31`, the
results of the consecutive `hal_ticks` calls are the unwrapped microsecond
counts divided by `2 ^ E`, modulo `2 ^ 32`. -/
theorem hal_ticks_counts_unwrapped_micros (E : Nat) (hE : 0 < E ∧ E < 8) (s : HalState)
    (hs : s.overflow = 0) (rs : List Nat) (hrs : ∀ r ∈ rs, r < 2 ^ 32)
    (hsteps : StepsBelow (2 ^ 31) rs) :
    ticksSeq E s rs = (unwrapped rs).map (fun T => T / 2 ^ E % 2 ^ 32) := by
  cases rs with
  | nil => rfl
  | cons r0 rs =>
    have hr0 : r0 < 2 ^ 32 := hrs r0 (List.mem_cons_self _ _)
    have hcall := hal_ticks_of_unwrapped E hE.2 { s with micros := r0 } r0 0
      (by show s.overflow = _; rw [hs]; simp) rfl (by omega)
    have hrest := ticksSeq_unwrapFrom E hE.2 rs (hal_ticks E { s with micros := r0 }).2 r0
      (by rw [hcall]) (fun r hr => hrs r (List.mem_cons_of_mem _ hr))
      (by rw [Nat.mod_eq_of_lt hr0]; exact hsteps)
    rw [Nat.mod_eq_of_lt hr0] at hrest
    show (hal_ticks E { s with micros := r0 }).1
        :: ticksSeq E (hal_ticks E { s with micros := r0 }).2 rs = _
    rw [hrest, hcall]
    rfl

/-- Witness of C1: `E = 6`, readings that wrap through zero between the first
and the second call. -/
theorem hal_ticks_counts_unwrapped_micros_witness :
    (0 < 6 ∧ 6 < 8) ∧
    ticksSeq 6 ⟨0, 0, [false, false, false], 0, true, []⟩ [4294967232, 64, 2147483000]
      = (unwrapped [4294967232, 64, 2147483000]).map (fun T => T / 2 ^ 6 % 2 ^ 32) :=
  ⟨by decide, hal_ticks_counts_unwrapped_micros 6 (by decide)
    ⟨0, 0, [false, false, false], 0, true, []⟩ rfl [4294967232, 64, 2147483000]
    (by decide) (by decide)⟩

/-- C2 as stated fails: with `E = 6` the readings `2 ^ 32 - 64` and `2 ^ 31`
are one step of `2 ^ 31 + 64` microseconds apart, less than the wrap period
`2 ^ 32`, yet the second tick value is below the first. -/
theorem ticks_step_below_wrap_period_goes_back :
    (0 < 6 ∧ 6 < 8) ∧ StepsBelow (2 ^ 32) [4294967232, 2147483648] ∧
    ticksSeq 6 ⟨0, 0, [false, false, false], 0, true, []⟩ [4294967232, 2147483648]
      = [67108863, 33554432] ∧
    ¬ NonDecreasingMod32
        (ticksSeq 6 ⟨0, 0, [false, false, false], 0, true, []⟩ [4294967232, 2147483648]) := by
  decide

/-- C2, amended: for `0 < E < 8`, from any state whose `overflow` has no bit
set below the seam, over every sequence of 32-bit readings whose steps modulo
`2 ^ 32` are all below `2 ^ 31` (half the wrap period), consecutive
`hal_ticks` results never go back: `(s4_t)(t_(i+1) - t_i) >= 0`. -/
theorem hal_ticks_nondecreasing (E : Nat) (hE : 0 < E ∧ E < 8) (s : HalState)
    (hs : OverflowOK E s.overflow) (rs : List Nat) (hrs : ∀ r ∈ rs, r < 2 ^ 32)
    (hsteps : StepsBelow (2 ^ 31) rs) :
    NonDecreasingMod32 (ticksSeq E s rs) := by
  cases rs with
  | nil => trivial
  | cons r0 rs =>
    have hr0 : r0 < 2 ^ 32 := hrs r0 (List.mem_cons_self _ _)
    obtain ⟨T, hT, hcall⟩ := exists_unwrapped E hE.2 { s with micros := r0 } hs
    have hT0 : T % 2 ^ 32 = r0 := by rw [hT]; exact Nat.mod_eq_of_lt hr0
    have hrest := ticksSeq_unwrapFrom E hE.2 rs (hal_ticks E { s with micros := r0 }).2 T
      (by rw [hcall]) (fun r hr => hrs r (List.mem_cons_of_mem _ hr))
      (by rw [hT0]; exact hsteps)
    have hmono := nonDecreasing_unwrapFrom E rs T
      (fun r hr => hrs r (List.mem_cons_of_mem _ hr)) (by rw [hT0]; exact hsteps)
    have hseq : ticksSeq E s (r0 :: rs)
        = (T :: unwrapFrom T (T % 2 ^ 32) rs).map (fun U => U / 2 ^ E % 2 ^ 32) := by
      show (hal_ticks E { s with micros := r0 }).1
          :: ticksSeq E (hal_ticks E { s with micros := r0 }).2 rs = _
      rw [hrest, hcall]
      rfl
    rw [hseq]
    exact hmono

/-- Witness of the amended C2: `E = 6`, three readings across a wrap. -/
theorem hal_ticks_nondecreasing_witness :
    (0 < 6 ∧ 6 < 8) ∧
    NonDecreasingMod32
      (ticksSeq 6 ⟨0, 0, [false, false, false], 0, true, []⟩ [4294967232, 64, 2147483000]) :=
  ⟨by decide, hal_ticks_nondecreasing 6 (by decide)
    ⟨0, 0, [false, false, false], 0, true, []⟩ (by decide) [4294967232, 64, 2147483000]
    (by decide) (by decide)⟩

/-! ## Claims about the deadline operations -/

/-- C3: `delta_time(target)` is the signed 32-bit value of `target - hal_ticks()`
modulo `2 ^ 32`: it lies in `[-2 ^ 31, 2 ^ 31)` and is congruent to
`target - now`; for every `d` with `-2 ^ 31 <= d < 2 ^ 31` the target
`(now + d) mod 2 ^ 32` gives exactly `d`, and the target `now` gives 0. -/
theorem delta_time_signed_distance (E : Nat) (s : HalState) (d : Int)
    (hd : -2 ^ 31 ≤ d ∧ d < 2 ^ 31) :
    (∀ target, -2 ^ 31 ≤ (delta_time E target s).1 ∧ (delta_time E target s).1 < 2 ^ 31 ∧
      ((delta_time E target s).1 - ((target : Int) - ((hal_ticks E s).1 : Int))) % 2 ^ 32 = 0) ∧
    (delta_time E ((((hal_ticks E s).1 : Int) + d) % 2 ^ 32).toNat s).1 = d ∧
    (delta_time E (hal_ticks E s).1 s).1 = 0 := by
  have hlt := hal_ticks_lt E s
  unfold delta_time toS4
  simp only
  generalize (hal_ticks E s).1 = now at hlt
  refine ⟨?_, ?_, ?_⟩
  · intro target
    split <;> omega
  · split <;> omega
  · split <;> omega

/-- Witness of C3: a deadline five ticks in the past. -/
theorem delta_time_signed_distance_witness :
    (-2 ^ 31 ≤ (-5 : Int) ∧ (-5 : Int) < 2 ^ 31) ∧
    (delta_time 6 ((((hal_ticks 6 ⟨0, 0, [false, false, false], 640, true, []⟩).1 : Int)
      + (-5)) % 2 ^ 32).toNat ⟨0, 0, [false, false, false], 640, true, []⟩).1 = -5 :=
  ⟨by decide, (delta_time_signed_distance 6 ⟨0, 0, [false, false, false], 640, true, []⟩ (-5)
    (by decide)).2.1⟩

/-- C4 as stated fails: with the clock held at reading 0 (`E = 6`, so
`now = 0`) the target `now + 1` gives `delta_time = 1`, not `-1`. -/
theorem delta_time_of_next_tick_is_plus_one :
    (hal_ticks 6 (hal_ticks 6 ⟨0, 0, [false, false, false], 0, true, []⟩).2).1
      = (hal_ticks 6 ⟨0, 0, [false, false, false], 0, true, []⟩).1 ∧
    (delta_time 6 (((hal_ticks 6 ⟨0, 0, [false, false, false], 0, true, []⟩).1 + 1) % 2 ^ 32)
      (hal_ticks 6 ⟨0, 0, [false, false, false], 0, true, []⟩).2).1 = 1 ∧
    ¬ (delta_time 6 (((hal_ticks 6 ⟨0, 0, [false, false, false], 0, true, []⟩).1 + 1) % 2 ^ 32)
      (hal_ticks 6 ⟨0, 0, [false, false, false], 0, true, []⟩).2).1 = -1 := by
  decide

/-- C4, amended: for `0 < E < 8`, with the raw clock held at one reading,
`hal_ticks` returns the same value `now` on each call, `delta_time(now)` is 0
and so `<= 0`, and for every integer `k` with `|k| < 2 ^ 31` the target
`(now + k) mod 2 ^ 32` gives `delta_time = k`. -/
theorem delta_time_clock_held (E : Nat) (hE : 0 < E ∧ E < 8) (s : HalState) (k : Int)
    (hk : |k| < 2 ^ 31) :
    (hal_ticks E (hal_ticks E s).2).1 = (hal_ticks E s).1 ∧
    (delta_time E (hal_ticks E s).1 (hal_ticks E s).2).1 = 0 ∧
    (delta_time E (hal_ticks E s).1 (hal_ticks E s).2).1 ≤ 0 ∧
    (delta_time E ((((hal_ticks E s).1 : Int) + k) % 2 ^ 32).toNat (hal_ticks E s).2).1 = k := by
  have hidem := hal_ticks_idem E hE.2 s
  have hlt := hal_ticks_lt E s
  have hk2 := abs_lt.mp hk
  unfold delta_time toS4
  simp only [hidem]
  generalize (hal_ticks E s).1 = now at hlt
  refine ⟨trivial, ?_, ?_, ?_⟩
  · split <;> omega
  · split <;> omega
  · split <;> omega

/-- Witness of the amended C4: `k = -3` at reading 640 with `E = 6`. -/
theorem delta_time_clock_held_witness :
    (0 < 6 ∧ 6 < 8) ∧ |(-3 : Int)| < 2 ^ 31 ∧
    (delta_time 6 ((((hal_ticks 6 ⟨0, 0, [false, false, false], 640, true, []⟩).1 : Int)
      + (-3)) % 2 ^ 32).toNat (hal_ticks 6 ⟨0, 0, [false, false, false], 640, true, []⟩).2).1
      = -3 :=
  ⟨by decide, by decide,
    (delta_time_clock_held 6 (by decide) ⟨0, 0, [false, false, false], 640, true, []⟩ (-3)
      (by decide)).2.2.2⟩

/-- C5: `hal_checkTimer(t)` is 1 when `delta_time(t) <= 0` and 0 otherwise;
with `now` the current tick value it is 1 for the target `(now - d) mod 2 ^ 32`
whenever `0 <= d < 2 ^ 31`, and 0 for the target `(now + d) mod 2 ^ 32`
whenever `0 < d < 2 ^ 31`. -/
theorem hal_checkTimer_reached_iff (E : Nat) (s : HalState) :
    (∀ t, ((hal_checkTimer E t s).1 = 1 ↔ (delta_time E t s).1 ≤ 0) ∧
      ((hal_checkTimer E t s).1 = 0 ↔ ¬ (delta_time E t s).1 ≤ 0)) ∧
    (∀ d, d < 2 ^ 31 → (hal_checkTimer E (((hal_ticks E s).1 + 2 ^ 32 - d) % 2 ^ 32) s).1 = 1) ∧
    (∀ d, 0 < d → d < 2 ^ 31 → (hal_checkTimer E (((hal_ticks E s).1 + d) % 2 ^ 32) s).1 = 0) := by
  have hlt := hal_ticks_lt E s
  refine ⟨?_, ?_, ?_⟩
  · intro t
    unfold hal_checkTimer
    simp only
    by_cases h : (delta_time E t s).1 ≤ 0 <;> simp [h]
  · intro d hd
    have key : (delta_time E (((hal_ticks E s).1 + 2 ^ 32 - d) % 2 ^ 32) s).1 ≤ 0 := by
      unfold delta_time toS4
      simp only
      generalize (hal_ticks E s).1 = now at hlt
      split <;> omega
    unfold hal_checkTimer
    simp only [if_pos key]
  · intro d hd0 hd
    have key : ¬ (delta_time E (((hal_ticks E s).1 + d) % 2 ^ 32) s).1 ≤ 0 := by
      unfold delta_time toS4
      simp only
      generalize (hal_ticks E s).1 = now at hlt
      split <;> omega
    unfold hal_checkTimer
    simp only [if_neg key]

/-- Witness of C5: seven ticks before and seven ticks after the current tick. -/
theorem hal_checkTimer_reached_iff_witness :
    (hal_checkTimer 6 (((hal_ticks 6 ⟨0, 0, [false, false, false], 640, true, []⟩).1
      + 2 ^ 32 - 7) % 2 ^ 32) ⟨0, 0, [false, false, false], 640, true, []⟩).1 = 1 ∧
    (hal_checkTimer 6 (((hal_ticks 6 ⟨0, 0, [false, false, false], 640, true, []⟩).1 + 7)
      % 2 ^ 32) ⟨0, 0, [false, false, false], 640, true, []⟩).1 = 0 :=
  ⟨(hal_checkTimer_reached_iff 6 ⟨0, 0, [false, false, false], 640, true, []⟩).2.1 7 (by decide),
   (hal_checkTimer_reached_iff 6 ⟨0, 0, [false, false, false], 640, true, []⟩).2.2 7 (by decide)
     (by decide)⟩

/-! ## The busy-wait loop -/

theorem chunk_facts (E : Nat) (hE : E < 8) :
    0 < 16000 / US_PER_OSTICK E ∧ 16000 / US_PER_OSTICK E * US_PER_OSTICK E = 16000 := by
  unfold US_PER_OSTICK
  interval_cases E <;> decide

theorem delay_micros (ms : Nat) (s : HalState) :
    (delay ms s).micros = (s.micros + 1000 * ms) % 2 ^ 32 := rfl

theorem delay_trace (ms : Nat) (s : HalState) :
    (delay ms s).trace = s.trace ++ [Call.delay ms] := rfl

theorem delay_overflow (ms : Nat) (s : HalState) : (delay ms s).overflow = s.overflow := rfl

theorem iterate_delay_micros (n : Nat) (s : HalState) :
    ((delay 16)^[n] s).micros % 2 ^ 32 = (s.micros + 16000 * n) % 2 ^ 32 := by
  induction n generalizing s with
  | zero => simp
  | succ n ih =>
    rw [Function.iterate_succ_apply, ih, delay_micros]
    omega

theorem iterate_delay_trace (n : Nat) (s : HalState) :
    ((delay 16)^[n] s).trace = s.trace ++ List.replicate n (Call.delay 16) := by
  induction n generalizing s with
  | zero => simp
  | succ n ih =>
    rw [Function.iterate_succ_apply, ih, delay_trace, List.append_assoc, List.replicate_succ]
    rfl

theorem iterate_delay_overflow (n : Nat) (s : HalState) :
    ((delay 16)^[n] s).overflow = s.overflow := by
  induction n generalizing s with
  | zero => rfl
  | succ n ih => rw [Function.iterate_succ_apply, ih, delay_overflow]

/-- Closed form of the loop: with a positive chunk and `n` the number of
whole chunks strictly below `delta`, the loop sleeps `n` times 16 ms and
leaves `delta - chunk * n`. -/
theorem waitLoop_eq (chunk : Int) (hc : 0 < chunk) :
    ∀ (n fuel : Nat) (delta : Int) (s : HalState), n ≤ fuel →
      (chunk * n < delta ∨ n = 0) → delta ≤ chunk * (n + 1) →
      waitLoop chunk fuel delta s = some (delta - chunk * n, (delay 16)^[n] s) := by
  intro n
  induction n with
  | zero =>
    intro fuel delta s _ _ hub
    have hnot : ¬ delta > chunk := by simp at hub; omega
    unfold waitLoop
    simp [hnot]
  | succ n ih =>
    intro fuel delta s hfuel hlb hub
    have hlb1 : chunk * ((n + 1 : Nat) : Int) < delta := by
      rcases hlb with h | h
      · exact h
      · omega
    push_cast at hlb1 hub
    have hcn : 0 ≤ chunk * (n : Int) := mul_nonneg hc.le (Int.ofNat_nonneg n)
    have hgt : delta > chunk := by nlinarith
    obtain ⟨f, rfl⟩ : ∃ f, fuel = f + 1 := ⟨fuel - 1, by omega⟩
    unfold waitLoop
    simp only [hgt, if_true]
    rw [ih f (delta - chunk) (delay 16 s) (by omega) (Or.inl (by nlinarith)) (by nlinarith)]
    rw [Function.iterate_succ_apply]
    congr 2
    push_cast
    ring

theorem delayMicroseconds_micros (us : Nat) (s : HalState) :
    (delayMicroseconds us s).micros = (s.micros + us) % 2 ^ 32 := rfl

theorem delayMicroseconds_overflow (us : Nat) (s : HalState) :
    (delayMicroseconds us s).overflow = s.overflow := rfl

theorem delayMicroseconds_trace (us : Nat) (s : HalState) :
    (delayMicroseconds us s).trace = s.trace ++ [Call.delayMicroseconds us] := rfl

theorem delta_time_snd (E t : Nat) (s : HalState) : (delta_time E t s).2 = (hal_ticks E s).2 := rfl

theorem delta_time_fst (E t : Nat) (s : HalState) :
    (delta_time E t s).1 = toS4 ((t % 2 ^ 32 + 2 ^ 32 - (hal_ticks E s).1) % 2 ^ 32) := rfl

theorem hal_checkTimer_fst (E t : Nat) (s : HalState) :
    (hal_checkTimer E t s).1 = if (delta_time E t s).1 ≤ 0 then 1 else 0 := rfl

theorem hal_ticks_trace (E : Nat) (s : HalState) : (hal_ticks E s).2.trace = s.trace := rfl

/-- The tick value depends on the state only through the 32-bit reading and `overflow`. -/
theorem hal_ticks_fst_congr (E : Nat) (s s2 : HalState)
    (hm : s.micros % 2 ^ 32 = s2.micros % 2 ^ 32) (ho : s.overflow = s2.overflow) :
    (hal_ticks E s).1 = (hal_ticks E s2).1 := by
  unfold hal_ticks
  simp only [hm, ho]

/-- A deadline that is not in the future: `hal_waitUntil` returns at once. -/
theorem hal_waitUntil_past (E t : Nat) (s : HalState) (hE : E < 8)
    (hd : (delta_time E t s).1 ≤ 0) :
    hal_waitUntil E t s = some (hal_ticks E s).2 := by
  have hc := (chunk_facts E hE).1
  have hc1 : (0 : Int) < ((16000 / US_PER_OSTICK E : Nat) : Int) := by exact_mod_cast hc
  unfold hal_waitUntil
  generalize ((16000 / US_PER_OSTICK E : Nat) : Int) = chunk at hc1
  have hloop := waitLoop_eq chunk hc1 0 (delta_time E t s).1.toNat (delta_time E t s).1
    (delta_time E t s).2 (Nat.zero_le _) (Or.inr rfl)
    (by rw [Nat.cast_zero, zero_add, mul_one]; omega)
  simp only [hloop]
  have : ¬ ((delta_time E t s).1 - chunk * ((0 : Nat) : Int) > 0) := by
    rw [Nat.cast_zero, mul_zero, sub_zero]; omega
  simp only [this, if_false, Function.iterate_zero, id, delta_time_snd]

/-- A deadline in the future: `n` sleeps of 16 ms, then one fine sleep. -/
theorem hal_waitUntil_future (E t : Nat) (s : HalState) (hE : E < 8) (n : Nat)
    (hlb : ((16000 / US_PER_OSTICK E : Nat) : Int) * n < (delta_time E t s).1)
    (hub : (delta_time E t s).1 ≤ ((16000 / US_PER_OSTICK E : Nat) : Int) * (n + 1)) :
    hal_waitUntil E t s = some (delayMicroseconds
      (((delta_time E t s).1 - ((16000 / US_PER_OSTICK E : Nat) : Int) * n)
        * (US_PER_OSTICK E : Int)).toNat ((delay 16)^[n] (hal_ticks E s).2)) := by
  have hc := (chunk_facts E hE).1
  have hc1 : (0 : Int) < ((16000 / US_PER_OSTICK E : Nat) : Int) := by exact_mod_cast hc
  have hn : (n : Int) ≤ ((16000 / US_PER_OSTICK E : Nat) : Int) * n := by
    have : (0 : Int) ≤ n := Int.ofNat_nonneg n
    nlinarith
  have hloop := waitLoop_eq _ hc1 n (delta_time E t s).1.toNat (delta_time E t s).1
    (delta_time E t s).2 (by omega) (Or.inl hlb) hub
  unfold hal_waitUntil
  simp only [hloop]
  have : (delta_time E t s).1 - ((16000 / US_PER_OSTICK E : Nat) : Int) * (n : Int) > 0 := by
    omega
  simp only [this, if_true, delta_time_snd]

theorem specChunk_eq (E : Nat) : specChunk E = ((16000 / US_PER_OSTICK E : Nat) : Int) := by
  unfold specChunk US_PER_OSTICK
  push_cast
  rfl

/-- The number of coarse sleeps of the specification is the number of whole
chunks strictly below `delta`. -/
theorem specCoarseSleeps_bounds (E : Nat) (hE : E < 8) (delta : Int) (hd : 0 < delta) :
    specChunk E * (specCoarseSleeps E delta : Int) < delta ∧
    delta ≤ specChunk E * ((specCoarseSleeps E delta : Int) + 1) := by
  have hc : 0 < specChunk E := by
    rw [specChunk_eq]; exact_mod_cast (chunk_facts E hE).1
  have hcq : (0 : ℚ) < (specChunk E : ℚ) := by exact_mod_cast hc
  have hdq : (0 : ℚ) < (delta : ℚ) := by exact_mod_cast hd
  have hpos : 0 < ⌈(delta : ℚ) / (specChunk E : ℚ)⌉ := Int.ceil_pos.mpr (div_pos hdq hcq)
  have hn : (specCoarseSleeps E delta : Int) = ⌈(delta : ℚ) / (specChunk E : ℚ)⌉ - 1 := by
    unfold specCoarseSleeps
    rw [Int.toNat_of_nonneg (by omega)]
  have h1 : ((⌈(delta : ℚ) / (specChunk E : ℚ)⌉ - 1 : Int) : ℚ) < (delta : ℚ) / (specChunk E : ℚ) := by
    have := Int.ceil_lt_add_one ((delta : ℚ) / (specChunk E : ℚ))
    push_cast
    linarith
  have h2 : (delta : ℚ) / (specChunk E : ℚ) ≤ (⌈(delta : ℚ) / (specChunk E : ℚ)⌉ : ℚ) :=
    Int.le_ceil _
  rw [hn]
  generalize ⌈(delta : ℚ) / (specChunk E : ℚ)⌉ = m at h1 h2
  rw [lt_div_iff₀ hcq] at h1
  rw [div_le_iff₀ hcq] at h2
  constructor
  · have : ((specChunk E * (m - 1) : Int) : ℚ) < ((delta : Int) : ℚ) := by
      push_cast; push_cast at h1; linarith
    exact_mod_cast this
  · have : ((delta : Int) : ℚ) ≤ ((specChunk E * (m - 1 + 1) : Int) : ℚ) := by
      push_cast; linarith
    exact_mod_cast this

/-- A deadline in the future, in the terms of the specification: the state
`hal_waitUntil` returns, the sign of the fine sleep and the total time slept. -/
theorem hal_waitUntil_future_spec (E : Nat) (hE : E < 8) (t : Nat) (s : HalState)
    (hd : 0 < (delta_time E t s).1) :
    hal_waitUntil E t s = some (delayMicroseconds (specFineSleep E (delta_time E t s).1).toNat
      ((delay 16)^[specCoarseSleeps E (delta_time E t s).1] (hal_ticks E s).2)) ∧
    0 < specFineSleep E (delta_time E t s).1 ∧
    (1000 * 16 * specCoarseSleeps E (delta_time E t s).1 : Int)
      + specFineSleep E (delta_time E t s).1 = (delta_time E t s).1 * 2 ^ E := by
  obtain ⟨hlb, hub⟩ := specCoarseSleeps_bounds E hE _ hd
  have hmul : specChunk E * 2 ^ E = 16000 := by
    rw [specChunk_eq]
    have := (chunk_facts E hE).2
    unfold US_PER_OSTICK at this ⊢
    exact_mod_cast this
  have hfine : specFineSleep E (delta_time E t s).1
      = ((delta_time E t s).1 - ((16000 / US_PER_OSTICK E : Nat) : Int)
          * (specCoarseSleeps E (delta_time E t s).1 : Int)) * (US_PER_OSTICK E : Int) := by
    unfold specFineSleep
    rw [← specChunk_eq, mul_comm (specChunk E)]
    unfold US_PER_OSTICK
    push_cast
    rfl
  refine ⟨?_, ?_, ?_⟩
  · rw [specChunk_eq] at hlb hub
    rw [hfine]
    exact hal_waitUntil_future E t s hE _ hlb hub
  · have h2E : (0 : Int) < 2 ^ E := by positivity
    unfold specFineSleep
    have : 0 < (delta_time E t s).1
        - (specCoarseSleeps E (delta_time E t s).1 : Int) * specChunk E := by
      linarith [mul_comm (specChunk E) (specCoarseSleeps E (delta_time E t s).1 : Int)]
    positivity
  · unfold specFineSleep
    generalize (specCoarseSleeps E (delta_time E t s).1 : Int) = n
    generalize (delta_time E t s).1 = delta
    have : (delta - n * specChunk E) * 2 ^ E = delta * 2 ^ E - n * (specChunk E * 2 ^ E) := by
      ring
    rw [this, hmul]
    ring

/-- C7: with `delta = delta_time(t)` at entry and `chunk = 16000 / 2 ^ E`,
`hal_waitUntil(t)` issues no sleep when `delta <= 0`; when `delta > 0` it
issues exactly `n = ceil(delta / chunk) - 1` calls `delay(16)` followed by
exactly one `delayMicroseconds((delta - n * chunk) * 2 ^ E)`, and the sleeps
requested add up to `delta * 2 ^ E` microseconds. -/
theorem hal_waitUntil_sleep_schedule (E : Nat) (hE : 0 < E ∧ E < 8) (t : Nat) (s : HalState) :
    ((delta_time E t s).1 ≤ 0 →
      ∃ s1, hal_waitUntil E t s = some s1 ∧ s1.trace = s.trace ∧ s1.micros = s.micros) ∧
    (0 < (delta_time E t s).1 →
      ∃ s1, hal_waitUntil E t s = some s1 ∧
        s1.trace = s.trace ++ List.replicate (specCoarseSleeps E (delta_time E t s).1) (Call.delay 16)
          ++ [Call.delayMicroseconds (specFineSleep E (delta_time E t s).1).toNat] ∧
        0 < specFineSleep E (delta_time E t s).1 ∧
        (1000 * 16 * specCoarseSleeps E (delta_time E t s).1 : Int)
          + specFineSleep E (delta_time E t s).1 = (delta_time E t s).1 * 2 ^ E) := by
  constructor
  · intro hd
    exact ⟨_, hal_waitUntil_past E t s hE.2 hd, rfl, rfl⟩
  · intro hd
    obtain ⟨hrun, hpos, hsum⟩ := hal_waitUntil_future_spec E hE.2 t s hd
    refine ⟨_, hrun, ?_, hpos, hsum⟩
    rw [delayMicroseconds_trace, iterate_delay_trace, hal_ticks_trace]

/-- Witness of C7: `E = 6`, reading 640 (tick 10), target tick 600: `delta`
is 590, two coarse sleeps and a fine sleep of `(590 - 2 * 250) * 64`. -/
theorem hal_waitUntil_sleep_schedule_witness :
    (0 < 6 ∧ 6 < 8) ∧ 0 < (delta_time 6 600 ⟨0, 0, [false, false, false], 640, true, []⟩).1 ∧
    ∃ s1, hal_waitUntil 6 600 ⟨0, 0, [false, false, false], 640, true, []⟩ = some s1 ∧
      s1.trace = [] ++ List.replicate
          (specCoarseSleeps 6 (delta_time 6 600 ⟨0, 0, [false, false, false], 640, true, []⟩).1)
          (Call.delay 16)
        ++ [Call.delayMicroseconds
          (specFineSleep 6 (delta_time 6 600 ⟨0, 0, [false, false, false], 640, true, []⟩).1).toNat] ∧
      0 < specFineSleep 6 (delta_time 6 600 ⟨0, 0, [false, false, false], 640, true, []⟩).1 ∧
      (1000 * 16 * specCoarseSleeps 6
          (delta_time 6 600 ⟨0, 0, [false, false, false], 640, true, []⟩).1 : Int)
        + specFineSleep 6 (delta_time 6 600 ⟨0, 0, [false, false, false], 640, true, []⟩).1
        = (delta_time 6 600 ⟨0, 0, [false, false, false], 640, true, []⟩).1 * 2 ^ 6 :=
  ⟨by decide, by decide,
    (hal_waitUntil_sleep_schedule 6 (by decide) 600
      ⟨0, 0, [false, false, false], 640, true, []⟩).2 (by decide)⟩

/-- C6 as stated fails: with `E = 6`, `overflow = 0` and `micros() = 0`, the
target `2 ^ 26` ticks asks for sleeps of `2 ^ 32` microseconds in all; the
raw counter is back at 0 when `hal_waitUntil` returns, no `hal_ticks` call has
seen the wrap, and `hal_checkTimer` for the same target yields 0. -/
theorem hal_waitUntil_full_wrap_returns_early :
    (0 < 6 ∧ 6 < 8) ∧
    ∃ s1, hal_waitUntil 6 67108864 ⟨0, 0, [false, false, false], 0, true, []⟩ = some s1 ∧
      s1.micros = 0 ∧ s1.overflow = 0 ∧
      (hal_checkTimer 6 67108864 s1).1 = 0 ∧ ¬ (hal_checkTimer 6 67108864 s1).1 = 1 := by
  have hdelta : (delta_time 6 67108864 ⟨0, 0, [false, false, false], 0, true, []⟩).1
      = 67108864 := by decide
  have hchunk : ((16000 / US_PER_OSTICK 6 : Nat) : Int) = 250 := by decide
  have hrun := hal_waitUntil_future 6 67108864 ⟨0, 0, [false, false, false], 0, true, []⟩
    (by decide) 268435 (by rw [hdelta, hchunk]; decide) (by rw [hdelta, hchunk]; decide)
  have hmicros := iterate_delay_micros 268435
    (hal_ticks 6 ⟨0, 0, [false, false, false], 0, true, []⟩).2
  have hov := iterate_delay_overflow 268435
    (hal_ticks 6 ⟨0, 0, [false, false, false], 0, true, []⟩).2
  have hm0 : (hal_ticks 6 ⟨0, 0, [false, false, false], 0, true, []⟩).2.micros = 0 := rfl
  have ho0 : (hal_ticks 6 ⟨0, 0, [false, false, false], 0, true, []⟩).2.overflow = 0 := by decide
  have harg : (((delta_time 6 67108864 ⟨0, 0, [false, false, false], 0, true, []⟩).1
      - ((16000 / US_PER_OSTICK 6 : Nat) : Int) * ((268435 : Nat) : Int))
      * (US_PER_OSTICK 6 : Int)).toNat = 7296 := by
    rw [hdelta, hchunk]; decide
  rw [harg] at hrun
  rw [hm0] at hmicros
  rw [ho0] at hov
  have hmic : (delayMicroseconds 7296 ((delay 16)^[268435]
      (hal_ticks 6 ⟨0, 0, [false, false, false], 0, true, []⟩).2)).micros = 0 := by
    rw [delayMicroseconds_micros]
    omega
  have hovf : (delayMicroseconds 7296 ((delay 16)^[268435]
      (hal_ticks 6 ⟨0, 0, [false, false, false], 0, true, []⟩).2)).overflow = 0 := by
    rw [delayMicroseconds_overflow, hov]
  have hval : (hal_ticks 6 (delayMicroseconds 7296 ((delay 16)^[268435]
      (hal_ticks 6 ⟨0, 0, [false, false, false], 0, true, []⟩).2))).1
      = (hal_ticks 6 ⟨0, 0, [false, false, false], 0, true, []⟩).1 :=
    hal_ticks_fst_congr 6 _ _ (by rw [hmic]) (by rw [hovf])
  have hcheck : (hal_checkTimer 6 67108864 (delayMicroseconds 7296 ((delay 16)^[268435]
      (hal_ticks 6 ⟨0, 0, [false, false, false], 0, true, []⟩).2))).1 = 0 := by
    rw [hal_checkTimer_fst, delta_time_fst, hval]
    decide
  refine ⟨by decide, _, hrun, hmic, hovf, hcheck, ?_⟩
  rw [hcheck]
  decide

/-- C6, amended: for `0 < E < 8`, from a state whose `overflow` has no bit
set below the seam, and for a target whose distance `delta` at entry
satisfies `delta * 2 ^ E < 2 ^ 31` (the whole wait is shorter than half the
wrap period of `micros()`), `hal_waitUntil(t)` returns and `hal_checkTimer(t)`
evaluated right after it yields 1. -/
theorem hal_waitUntil_reaches_deadline (E : Nat) (hE : 0 < E ∧ E < 8) (t : Nat) (s : HalState)
    (hov : OverflowOK E s.overflow) (hshort : (delta_time E t s).1 * 2 ^ E < 2 ^ 31) :
    ∃ s1, hal_waitUntil E t s = some s1 ∧ (hal_checkTimer E t s1).1 = 1 := by
  by_cases hd : (delta_time E t s).1 ≤ 0
  · refine ⟨_, hal_waitUntil_past E t s hE.2 hd, ?_⟩
    rw [hal_checkTimer_fst, delta_time_fst, hal_ticks_idem E hE.2 s, ← delta_time_fst, if_pos hd]
  · have hd : 0 < (delta_time E t s).1 := by omega
    obtain ⟨T, hT, hcall⟩ := exists_unwrapped E hE.2 s hov
    obtain ⟨hrun, hpos, hsum⟩ := hal_waitUntil_future_spec E hE.2 t s hd
    refine ⟨_, hrun, ?_⟩
    generalize specCoarseSleeps E (delta_time E t s).1 = n at hsum ⊢
    obtain ⟨D, hD⟩ : ∃ D : Nat, (delta_time E t s).1 = D := ⟨_, (Int.toNat_of_nonneg hd.le).symm⟩
    obtain ⟨F, hF⟩ : ∃ F : Nat, specFineSleep E (delta_time E t s).1 = F :=
      ⟨_, (Int.toNat_of_nonneg hpos.le).symm⟩
    have hsumN : 16000 * n + F = D * 2 ^ E := by
      rw [hF, hD] at hsum
      have : ((16000 * n + F : Nat) : Int)
          = ((D * 2 ^ E : Nat) : Int) := by
        push_cast; linarith
      exact_mod_cast this
    have hPlt : D * 2 ^ E < 2 ^ 31 := by
      rw [hD] at hshort
      exact_mod_cast hshort
    have hFnat : (specFineSleep E (delta_time E t s).1).toNat = F := by rw [hF]; rfl
    rw [hFnat]
    have hmic0 := iterate_delay_micros n (hal_ticks E s).2
    rw [hal_ticks_micros] at hmic0
    have hmic : (delayMicroseconds F ((delay 16)^[n]
        (hal_ticks E s).2)).micros % 2 ^ 32 = (T + D * 2 ^ E) % 2 ^ 32 := by
      rw [delayMicroseconds_micros, ← hsumN]
      omega
    have hovf : (delayMicroseconds F ((delay 16)^[n]
        (hal_ticks E s).2)).overflow = (T / 2 ^ 31 * 2 ^ (7 - E)) % 256 := by
      rw [delayMicroseconds_overflow, iterate_delay_overflow, hcall]
    have hnext := hal_ticks_of_unwrapped E hE.2 _ (T + D * 2 ^ E) (T / 2 ^ 31) hovf hmic
      (by omega)
    have hdiv : (T + D * 2 ^ E) / 2 ^ E = T / 2 ^ E + D :=
      Nat.add_mul_div_right T D (Nat.pos_pow_of_pos E (by norm_num))
    have hdelta : (D : Int) = toS4 ((t % 2 ^ 32 + 2 ^ 32 - T / 2 ^ E % 2 ^ 32) % 2 ^ 32) := by
      rw [← hD, delta_time_fst, hcall]
    have hDlt : D < 2 ^ 31 := by
      have : D ≤ D * 2 ^ E := Nat.le_mul_of_pos_right D (Nat.pos_pow_of_pos E (by norm_num))
      omega
    have hzero : (delta_time E t (delayMicroseconds F
        ((delay 16)^[n] (hal_ticks E s).2))).1 ≤ 0 := by
      rw [delta_time_fst, hnext, hdiv]
      simp only
      generalize T / 2 ^ E = a at hdelta
      unfold toS4 at hdelta ⊢
      split at hdelta <;> split <;> omega
    rw [hal_checkTimer_fst, if_pos hzero]

/-- Witness of the amended C6: `E = 6`, reading 640, target tick 600. -/
theorem hal_waitUntil_reaches_deadline_witness :
    (0 < 6 ∧ 6 < 8) ∧ OverflowOK 6 0 ∧
    (delta_time 6 600 ⟨0, 0, [false, false, false], 640, true, []⟩).1 * 2 ^ 6 < 2 ^ 31 ∧
    ∃ s1, hal_waitUntil 6 600 ⟨0, 0, [false, false, false], 640, true, []⟩ = some s1 ∧
      (hal_checkTimer 6 600 s1).1 = 1 :=
  ⟨by decide, by decide, by decide,
    hal_waitUntil_reaches_deadline 6 (by decide) 600
      ⟨0, 0, [false, false, false], 640, true, []⟩ (by decide) (by decide)⟩

/-! ## The poll pass and the nesting guard -/

/-- One slot of the poll pass touches neither the nesting counter nor the
interrupt flag; it appends to the trace one `digitalRead` when the slot is in
use, possibly a callback, and never `interrupts`. -/
theorem io_check_slot_frame (pins : lmic_pinmap) (read : Nat → Bool) (s : HalState) (i : Nat) :
    (io_check_slot pins read s i).irqlevel = s.irqlevel ∧
    (io_check_slot pins read s i).irq_enabled = s.irq_enabled ∧
    ∃ ext, (io_check_slot pins read s i).trace = s.trace ++ ext ∧
      ext.count Call.interrupts = 0 ∧
      ext.countP Call.isDigitalRead
        = if pins.dio.getD i LMIC_UNUSED_PIN = LMIC_UNUSED_PIN then 0 else 1 := by
  unfold io_check_slot
  generalize pins.dio.getD i LMIC_UNUSED_PIN = p
  by_cases hu : p = LMIC_UNUSED_PIN
  · rw [if_pos hu, if_pos hu]
    exact ⟨rfl, rfl, [], by simp, rfl, rfl⟩
  · rw [if_neg hu, if_neg hu]
    dsimp only
    split_ifs
    · exact ⟨rfl, rfl, [Call.digitalRead p, Call.radio_irq_handler i], by simp, by simp,
        by simp [List.countP_cons, Call.isDigitalRead]⟩
    · exact ⟨rfl, rfl, [Call.digitalRead p], rfl, by simp,
        by simp [List.countP_cons, Call.isDigitalRead]⟩
    · exact ⟨rfl, rfl, [Call.digitalRead p], rfl, by simp,
        by simp [List.countP_cons, Call.isDigitalRead]⟩

theorem used_slots_count (g : Nat → Nat) :
    (((if g 0 = LMIC_UNUSED_PIN then 0 else 1) + if g 1 = LMIC_UNUSED_PIN then 0 else 1)
      + if g 2 = LMIC_UNUSED_PIN then 0 else 1)
      = ([0, 1, 2].filter (fun i => g i ≠ LMIC_UNUSED_PIN)).length := by
  by_cases h0 : g 0 = LMIC_UNUSED_PIN <;> by_cases h1 : g 1 = LMIC_UNUSED_PIN <;>
    by_cases h2 : g 2 = LMIC_UNUSED_PIN <;> simp [List.filter, h0, h1, h2]

theorem hal_io_check_unfold (pins : lmic_pinmap) (read : Nat → Bool) (s : HalState) :
    hal_io_check pins read s
      = io_check_slot pins read (io_check_slot pins read (io_check_slot pins read s 0) 1) 2 := rfl

/-- A poll pass leaves the nesting counter and the interrupt flag alone,
issues no `interrupts` call and reads every slot in use exactly once. -/
theorem hal_io_check_frame (pins : lmic_pinmap) (read : Nat → Bool) (s : HalState) :
    (hal_io_check pins read s).irqlevel = s.irqlevel ∧
    (hal_io_check pins read s).irq_enabled = s.irq_enabled ∧
    ∃ ext, (hal_io_check pins read s).trace = s.trace ++ ext ∧
      ext.count Call.interrupts = 0 ∧
      ext.countP Call.isDigitalRead
        = ((List.range NUM_DIO).filter
            (fun i => pins.dio.getD i LMIC_UNUSED_PIN ≠ LMIC_UNUSED_PIN)).length := by
  rw [hal_io_check_unfold]
  obtain ⟨l0, e0, x0, t0, c0, r0⟩ := io_check_slot_frame pins read s 0
  obtain ⟨l1, e1, x1, t1, c1, r1⟩ := io_check_slot_frame pins read (io_check_slot pins read s 0) 1
  obtain ⟨l2, e2, x2, t2, c2, r2⟩ := io_check_slot_frame pins read
    (io_check_slot pins read (io_check_slot pins read s 0) 1) 2
  refine ⟨by rw [l2, l1, l0], by rw [e2, e1, e0], x0 ++ x1 ++ x2, ?_, ?_, ?_⟩
  · rw [t2, t1, t0]; simp [List.append_assoc]
  · simp [List.count_append, c0, c1, c2]
  · rw [List.countP_append, List.countP_append, r0, r1, r2]
    have hr : List.range NUM_DIO = [0, 1, 2] := rfl
    rw [hr]
    exact used_slots_count (fun i => pins.dio.getD i LMIC_UNUSED_PIN)

theorem disableN_frame (n : Nat) (s : HalState) :
    (disableN n s).irqlevel = s.irqlevel + n ∧
    (disableN n s).trace.count Call.interrupts = s.trace.count Call.interrupts ∧
    (0 < n → (disableN n s).irq_enabled = false) := by
  induction n with
  | zero => exact ⟨by simp [disableN], rfl, fun h => absurd h (by decide)⟩
  | succ n ih =>
    obtain ⟨hl, ht, _⟩ := ih
    refine ⟨?_, ?_, fun _ => rfl⟩
    · show (disableN n s).irqlevel + 1 = _
      rw [hl]; push_cast; ring
    · show ((disableN n s).trace ++ [Call.noInterrupts]).count Call.interrupts = _
      rw [List.count_append, ht]
      rfl

/-- While the counter stays above zero an enable only decrements it. -/
theorem hal_enableIRQs_nested (pins : lmic_pinmap) (read : Nat → Bool) (s : HalState)
    (h : s.irqlevel ≠ 1) :
    hal_enableIRQs pins read s = { s with irqlevel := s.irqlevel - 1 } := by
  unfold hal_enableIRQs
  have : ¬ (s.irqlevel - 1 = 0) := by omega
  simp only [this, if_false]

/-- The enable that brings the counter to zero: `interrupts()`, then one poll pass. -/
theorem hal_enableIRQs_outermost (pins : lmic_pinmap) (read : Nat → Bool) (s : HalState)
    (h : s.irqlevel = 1) :
    hal_enableIRQs pins read s = hal_io_check pins read (interrupts { s with irqlevel := 0 }) := by
  unfold hal_enableIRQs
  simp only [h]
  rfl

theorem enableN_nested (pins : lmic_pinmap) (reads : Nat → Nat → Bool) (s : HalState) :
    ∀ k : Nat, (k : Int) < s.irqlevel →
      enableN pins reads k s = { s with irqlevel := s.irqlevel - k } := by
  intro k
  induction k with
  | zero => intro _; simp [enableN]
  | succ k ih =>
    intro hk
    push_cast at hk
    show hal_enableIRQs pins (reads k) (enableN pins reads k s) = _
    rw [ih (by omega), hal_enableIRQs_nested _ _ _ (by show s.irqlevel - (k : Int) ≠ 1; omega)]
    show ({ s with irqlevel := s.irqlevel - (k : Int) - 1 } : HalState) = _
    congr 1
    push_cast
    ring

/-! ## Claims about the nesting guard -/

/-- C8: starting from nesting counter 0, after `n >= 1` calls of
`hal_disableIRQs` and then `k < n` calls of `hal_enableIRQs` no `interrupts()`
call has been issued and interrupts are still off; the `n`-th enable issues
exactly one, interrupts are on again and the counter is back at 0. -/
theorem nested_enable_reenables_once (pins : lmic_pinmap) (reads : Nat → Nat → Bool)
    (s : HalState) (hs : s.irqlevel = 0) (n : Nat) (hn : 1 ≤ n) :
    (∀ k, k < n →
      (enableN pins reads k (disableN n s)).trace.count Call.interrupts
        = s.trace.count Call.interrupts ∧
      (enableN pins reads k (disableN n s)).irq_enabled = false) ∧
    (enableN pins reads n (disableN n s)).trace.count Call.interrupts
      = s.trace.count Call.interrupts + 1 ∧
    (enableN pins reads n (disableN n s)).irq_enabled = true ∧
    (enableN pins reads n (disableN n s)).irqlevel = 0 := by
  obtain ⟨hl, ht, he⟩ := disableN_frame n s
  rw [hs, zero_add] at hl
  have hoff := he (by omega)
  have hbelow : ∀ k, k < n → enableN pins reads k (disableN n s)
      = { disableN n s with irqlevel := (disableN n s).irqlevel - k } := by
    intro k hk
    exact enableN_nested pins reads (disableN n s) k (by rw [hl]; exact_mod_cast hk)
  refine ⟨?_, ?_⟩
  · intro k hk
    rw [hbelow k hk]
    exact ⟨ht, hoff⟩
  · obtain ⟨m, rfl⟩ : ∃ m, n = m + 1 := ⟨n - 1, by omega⟩
    have hlast : enableN pins reads (m + 1) (disableN (m + 1) s)
        = hal_enableIRQs pins (reads m) (enableN pins reads m (disableN (m + 1) s)) := rfl
    rw [hlast, hbelow m (by omega),
      hal_enableIRQs_outermost _ _ _ (by show (disableN (m + 1) s).irqlevel - (m : Int) = 1
                                         rw [hl]; push_cast; ring)]
    obtain ⟨fl, fe, ext, ftr, fc, _⟩ := hal_io_check_frame pins (reads m)
      (interrupts { ({ disableN (m + 1) s with
        irqlevel := (disableN (m + 1) s).irqlevel - (m : Int) } : HalState) with irqlevel := 0 })
    refine ⟨?_, ?_, ?_⟩
    · rw [ftr, List.count_append, fc]
      show ((disableN (m + 1) s).trace ++ [Call.interrupts]).count Call.interrupts + 0 = _
      rw [List.count_append, ht]
      rfl
    · rw [fe]; rfl
    · rw [fl]; rfl

/-- Witness of C8: three nested disables, then two and three enables. -/
theorem nested_enable_reenables_once_witness :
    (enableN ⟨10, 255, 9, [2, 3, 255]⟩ (fun _ _ => true) 2
      (disableN 3 ⟨0, 0, [false, false, false], 0, true, []⟩)).trace.count Call.interrupts = 0 ∧
    (enableN ⟨10, 255, 9, [2, 3, 255]⟩ (fun _ _ => true) 3
      (disableN 3 ⟨0, 0, [false, false, false], 0, true, []⟩)).trace.count Call.interrupts = 1 :=
  ⟨((nested_enable_reenables_once ⟨10, 255, 9, [2, 3, 255]⟩ (fun _ _ => true)
      ⟨0, 0, [false, false, false], 0, true, []⟩ rfl 3 (by decide)).1 2 (by decide)).1,
   (nested_enable_reenables_once ⟨10, 255, 9, [2, 3, 255]⟩ (fun _ _ => true)
      ⟨0, 0, [false, false, false], 0, true, []⟩ rfl 3 (by decide)).2.1⟩

theorem runIrq_append (pins : lmic_pinmap) (calls : List IrqCall) (c : IrqCall) (s : HalState) :
    runIrq pins (calls ++ [c]) s = irqStep pins (runIrq pins calls s) c := by
  unfold runIrq
  rw [List.foldl_append]
  rfl

theorem neverMoreEnables_init (calls : List IrqCall) (c : IrqCall)
    (h : NeverMoreEnables (calls ++ [c])) : NeverMoreEnables calls := by
  intro k
  by_cases hk : k ≤ calls.length
  · have := h k
    rwa [List.take_append_of_le_length hk] at this
  · have := h calls.length
    rw [List.take_append_of_le_length (le_refl _), List.take_length] at this
    rwa [List.take_of_length_le (by omega)]

/-- The counter is the number of disables minus the number of enables so far. -/
theorem runIrq_irqlevel (pins : lmic_pinmap) (calls : List IrqCall) (s : HalState) :
    (runIrq pins calls s).irqlevel
      = s.irqlevel + calls.countP IrqCall.isDisable - calls.countP IrqCall.isEnable := by
  induction calls using List.reverseRecOn with
  | nil => simp [runIrq]
  | append_singleton calls c ih =>
    rw [runIrq_append, List.countP_append, List.countP_append]
    cases c with
    | disable =>
      show (runIrq pins calls s).irqlevel + 1 = _
      rw [ih]
      simp [List.countP_cons, IrqCall.isDisable, IrqCall.isEnable]
      ring
    | enable read =>
      have hdec : (hal_enableIRQs pins read (runIrq pins calls s)).irqlevel
          = (runIrq pins calls s).irqlevel - 1 := by
        by_cases h1 : (runIrq pins calls s).irqlevel = 1
        · rw [hal_enableIRQs_outermost _ _ _ h1, (hal_io_check_frame _ _ _).1, h1]
          rfl
        · rw [hal_enableIRQs_nested _ _ _ h1]
      show (hal_enableIRQs pins read (runIrq pins calls s)).irqlevel = _
      rw [hdec, ih]
      simp [List.countP_cons, IrqCall.isDisable, IrqCall.isEnable]
      ring

/-- C9: in the state reached from counter 0 with interrupts enabled by any
sequence of `hal_disableIRQs` / `hal_enableIRQs` calls none of whose initial
segments has more enables than disables, hardware interrupts are enabled if
and only if the nesting counter is 0. -/
theorem irq_enabled_iff_counter_zero (pins : lmic_pinmap) (calls : List IrqCall) (s : HalState)
    (h0 : s.irqlevel = 0) (he : s.irq_enabled = true) (hbal : NeverMoreEnables calls) :
    (runIrq pins calls s).irq_enabled = true ↔ (runIrq pins calls s).irqlevel = 0 := by
  induction calls using List.reverseRecOn with
  | nil => simp [runIrq, h0, he]
  | append_singleton calls c ih =>
    have hinit := neverMoreEnables_init calls c hbal
    have hih := ih hinit
    have hlevel := runIrq_irqlevel pins calls s
    rw [h0, zero_add] at hlevel
    have hfull := hbal (calls.length + 1)
    rw [List.take_of_length_le (by simp), List.countP_append, List.countP_append] at hfull
    have hpre := hinit calls.length
    rw [List.take_length] at hpre
    rw [runIrq_append]
    cases c with
    | disable =>
      show (false = true) ↔ (runIrq pins calls s).irqlevel + 1 = 0
      constructor
      · intro h; exact absurd h (by decide)
      · intro h; omega
    | enable read =>
      have hge : 1 ≤ (runIrq pins calls s).irqlevel := by
        simp [List.countP_cons, IrqCall.isDisable, IrqCall.isEnable] at hfull
        omega
      show (hal_enableIRQs pins read (runIrq pins calls s)).irq_enabled = true
        ↔ (hal_enableIRQs pins read (runIrq pins calls s)).irqlevel = 0
      by_cases h1 : (runIrq pins calls s).irqlevel = 1
      · rw [hal_enableIRQs_outermost _ _ _ h1, (hal_io_check_frame _ _ _).1,
          (hal_io_check_frame _ _ _).2.1]
        exact ⟨fun _ => rfl, fun _ => rfl⟩
      · rw [hal_enableIRQs_nested _ _ _ h1]
        show (runIrq pins calls s).irq_enabled = true ↔ (runIrq pins calls s).irqlevel - 1 = 0
        constructor
        · intro h; have := hih.mp h; omega
        · intro h; omega

/-- Witness of C9: disable, disable, enable, enable. -/
theorem irq_enabled_iff_counter_zero_witness :
    NeverMoreEnables [IrqCall.disable, IrqCall.disable, IrqCall.enable (fun _ => true),
      IrqCall.enable (fun _ => false)] ∧
    ((runIrq ⟨10, 255, 9, [2, 3, 255]⟩
        [IrqCall.disable, IrqCall.disable, IrqCall.enable (fun _ => true),
          IrqCall.enable (fun _ => false)]
        ⟨0, 0, [false, false, false], 0, true, []⟩).irq_enabled = true ↔
      (runIrq ⟨10, 255, 9, [2, 3, 255]⟩
        [IrqCall.disable, IrqCall.disable, IrqCall.enable (fun _ => true),
          IrqCall.enable (fun _ => false)]
        ⟨0, 0, [false, false, false], 0, true, []⟩).irqlevel = 0) :=
  have hbal : NeverMoreEnables [IrqCall.disable, IrqCall.disable,
      IrqCall.enable (fun _ => true), IrqCall.enable (fun _ => false)] := by
    intro k
    rcases k with _ | _ | _ | _ | k <;>
      simp [List.take, List.countP_cons, IrqCall.isEnable, IrqCall.isDisable]
  ⟨hbal, irq_enabled_iff_counter_zero ⟨10, 255, 9, [2, 3, 255]⟩ _
    ⟨0, 0, [false, false, false], 0, true, []⟩ rfl rfl hbal⟩

/-- C10: a call of `hal_enableIRQs` with counter `c` leaves the counter at
`c - 1`.  If `c = 1` it calls `interrupts()` and then runs one poll pass: the
trace grows by `interrupts` followed by the calls of that pass, which reads
every slot in use once.  For any other `c`, in particular `c > 1`, nothing but
the counter changes: no platform call is issued and no stored DIO state is
touched. -/
theorem hal_enableIRQs_polls_at_zero_only (pins : lmic_pinmap) (read : Nat → Bool)
    (s : HalState) :
    (hal_enableIRQs pins read s).irqlevel = s.irqlevel - 1 ∧
    (s.irqlevel = 1 →
      hal_enableIRQs pins read s
        = hal_io_check pins read (interrupts { s with irqlevel := s.irqlevel - 1 }) ∧
      (hal_enableIRQs pins read s).irq_enabled = true ∧
      ∃ polled, (hal_enableIRQs pins read s).trace = s.trace ++ Call.interrupts :: polled ∧
        polled.count Call.interrupts = 0 ∧
        polled.countP Call.isDigitalRead
          = ((List.range NUM_DIO).filter
              (fun i => pins.dio.getD i LMIC_UNUSED_PIN ≠ LMIC_UNUSED_PIN)).length) ∧
    (s.irqlevel ≠ 1 →
      hal_enableIRQs pins read s = { s with irqlevel := s.irqlevel - 1 } ∧
      (hal_enableIRQs pins read s).trace = s.trace ∧
      (hal_enableIRQs pins read s).dio_states = s.dio_states ∧
      (hal_enableIRQs pins read s).irq_enabled = s.irq_enabled) := by
  refine ⟨?_, ?_, ?_⟩
  · by_cases h1 : s.irqlevel = 1
    · rw [hal_enableIRQs_outermost _ _ _ h1, (hal_io_check_frame _ _ _).1, h1]
      rfl
    · rw [hal_enableIRQs_nested _ _ _ h1]
  · intro h1
    have hz : s.irqlevel - 1 = 0 := by omega
    rw [hal_enableIRQs_outermost _ _ _ h1, hz]
    obtain ⟨_, fe, ext, ftr, fc, fr⟩ := hal_io_check_frame pins read
      (interrupts { s with irqlevel := 0 })
    refine ⟨rfl, by rw [fe]; rfl, ext, ?_, fc, fr⟩
    rw [ftr]
    show s.trace ++ [Call.interrupts] ++ ext = _
    simp
  · intro h1
    rw [hal_enableIRQs_nested _ _ _ h1]
    exact ⟨rfl, rfl, rfl, rfl⟩

/-- Witness of C10: counter 1 (the pass reads the two pins in use) and counter 2. -/
theorem hal_enableIRQs_polls_at_zero_only_witness :
    (hal_enableIRQs ⟨10, 255, 9, [2, 3, 255]⟩ (fun _ => true)
      ⟨0, 1, [false, false, false], 0, false, []⟩).irq_enabled = true ∧
    (hal_enableIRQs ⟨10, 255, 9, [2, 3, 255]⟩ (fun _ => true)
      ⟨0, 2, [false, false, false], 0, false, []⟩).trace = [] :=
  ⟨((hal_enableIRQs_polls_at_zero_only ⟨10, 255, 9, [2, 3, 255]⟩ (fun _ => true)
      ⟨0, 1, [false, false, false], 0, false, []⟩).2.1 rfl).2.1,
   ((hal_enableIRQs_polls_at_zero_only ⟨10, 255, 9, [2, 3, 255]⟩ (fun _ => true)
      ⟨0, 2, [false, false, false], 0, false, []⟩).2.2 (by decide)).2.1⟩

/-! ## Further claims about the tick clock -/

/-- With `overflow = 0` and a reading below `2 ^ 31` a call returns the
reading shifted down and changes nothing. -/
theorem hal_ticks_low_reading (E : Nat) (hE : E < 8) (s : HalState) (h0 : s.overflow = 0)
    (hr : s.micros < 2 ^ 31) :
    hal_ticks E s = (s.micros >>> E, s) := by
  have h := hal_ticks_of_unwrapped E hE s s.micros 0 (by rw [h0]; simp) rfl
    (Or.inl (Nat.div_eq_of_lt hr))
  rw [h, Nat.div_eq_of_lt hr, Nat.shiftRight_eq_div_pow]
  have hlt : s.micros / 2 ^ E < 2 ^ 32 :=
    lt_of_le_of_lt (Nat.div_le_self _ _) (by omega)
  rw [Nat.mod_eq_of_lt hlt]
  congr 1
  cases s
  simp only [Nat.zero_mul, Nat.zero_mod] at *
  simp [h0]

/-- The new value of `overflow` in arithmetic form. -/
theorem hal_ticks_overflow_eq (E : Nat) (hE : E < 8) (s : HalState) :
    (hal_ticks E s).2.overflow
      = (s.overflow + if (s.micros % 2 ^ 32).testBit 31 = s.overflow.testBit (7 - E) then 0
          else 2 ^ (7 - E)) % 256 := by
  show (s.overflow + (((((s.micros % 2 ^ 32) >>> E >>> 24) % 256) ^^^ s.overflow)
      &&& ((1 <<< (7 - E)) % 256))) % 256 = _
  rw [seam_increment E _ _ hE]

theorem reachableOverflow_ok (E : Nat) (hE : E < 8) (ov : Nat) (h : ReachableOverflow E ov) :
    OverflowOK E ov := by
  induction h with
  | init => exact ⟨by norm_num, Nat.zero_mod _⟩
  | step s _ ih => exact (hal_ticks_overflowOK E hE s ih).2

/-- C14: for `0 < E < 8`, from `overflow = 0`, over every sequence of raw
readings that are all below `2 ^ 31`, each `hal_ticks` call returns exactly
`raw >> E` and leaves the overflow byte at 0. -/
theorem hal_ticks_below_half_range (E : Nat) (hE : 0 < E ∧ E < 8) (s : HalState)
    (hs : s.overflow = 0) (rs : List Nat) (hrs : ∀ r ∈ rs, r < 2 ^ 31) :
    ticksSeq E s rs = rs.map (fun r => r >>> E) ∧
    overflowSeq E s rs = rs.map (fun _ => 0) := by
  induction rs generalizing s with
  | nil => exact ⟨rfl, rfl⟩
  | cons r rs ih =>
    have hcall := hal_ticks_low_reading E hE.2 { s with micros := r } hs
      (hrs r (List.mem_cons_self _ _))
    have hrest := ih (hal_ticks E { s with micros := r }).2 (by rw [hcall]; exact hs)
      (fun x hx => hrs x (List.mem_cons_of_mem _ hx))
    constructor
    · show (hal_ticks E { s with micros := r }).1
          :: ticksSeq E (hal_ticks E { s with micros := r }).2 rs = _
      rw [hrest.1, hcall]
      rfl
    · show (hal_ticks E { s with micros := r }).2.overflow
          :: overflowSeq E (hal_ticks E { s with micros := r }).2 rs = _
      rw [hrest.2, hcall]
      show s.overflow :: _ = _
      rw [hs]
      rfl

/-- Witness of C14, the scenario of the specification: `E = 6`, readings
0, 4000000, 8000000 give 0, 62500, 125000 and the overflow byte stays 0. -/
theorem hal_ticks_below_half_range_witness :
    (0 < 6 ∧ 6 < 8) ∧
    ticksSeq 6 ⟨0, 0, [false, false, false], 0, true, []⟩ [0, 4000000, 8000000]
      = [0, 62500, 125000] ∧
    overflowSeq 6 ⟨0, 0, [false, false, false], 0, true, []⟩ [0, 4000000, 8000000]
      = [0, 0, 0] :=
  ⟨by decide,
   (hal_ticks_below_half_range 6 (by decide) ⟨0, 0, [false, false, false], 0, true, []⟩ rfl
      [0, 4000000, 8000000] (by decide)).1.trans (by decide),
   (hal_ticks_below_half_range 6 (by decide) ⟨0, 0, [false, false, false], 0, true, []⟩ rfl
      [0, 4000000, 8000000] (by decide)).2.trans (by decide)⟩

/-- C17: for `0 < E < 8`, from every value of `overflow` reachable from 0 and
at every raw reading, after `hal_ticks` the seam bit `7 - E` of `overflow`
equals bit 31 of the reading, every bit of `overflow` below the seam is zero,
and the low `32 - E` bits of the returned value are the reading shifted down
by `E`. -/
theorem hal_ticks_seam_invariant (E : Nat) (hE : 0 < E ∧ E < 8) (s : HalState)
    (hreach : ReachableOverflow E s.overflow) :
    (hal_ticks E s).2.overflow.testBit (7 - E) = (s.micros % 2 ^ 32).testBit 31 ∧
    (∀ i, i < 7 - E → (hal_ticks E s).2.overflow.testBit i = false) ∧
    (hal_ticks E s).1 % 2 ^ (32 - E) = (s.micros % 2 ^ 32) >>> E := by
  have hok := reachableOverflow_ok E hE.2 _ hreach
  have hok2 := (hal_ticks_overflowOK E hE.2 s hok).2
  obtain ⟨T, hT, hcall⟩ := exists_unwrapped E hE.2 s hok
  refine ⟨(seam_after E hE.2 s).symm, ?_, ?_⟩
  · intro i hi
    have h := Nat.testBit_mod_two_pow (hal_ticks E s).2.overflow (7 - E) i
    rw [hok2.2] at h
    simpa [hi] using h.symm
  · rw [hcall, ← hT, Nat.shiftRight_eq_div_pow]
    show T / 2 ^ E % 2 ^ 32 % 2 ^ (32 - E) = T % 2 ^ 32 / 2 ^ E
    have hsplit : (2 : Nat) ^ 32 = 2 ^ E * 2 ^ (32 - E) := by
      rw [← Nat.pow_add]; congr 1; omega
    rw [Nat.mod_mod_of_dvd _ (Nat.pow_dvd_pow 2 (by omega)), hsplit,
      Nat.mod_mul_right_div_self]

/-- Witness of C17: the overflow byte left by a call at reading `2 ^ 32 - 64`
is reachable; the next call is made at reading 64. -/
theorem hal_ticks_seam_invariant_witness :
    (0 < 6 ∧ 6 < 8) ∧
    (hal_ticks 6 ⟨2, 0, [false, false, false], 64, true, []⟩).2.overflow.testBit (7 - 6)
      = (64 % 2 ^ 32).testBit 31 ∧
    (hal_ticks 6 ⟨2, 0, [false, false, false], 64, true, []⟩).1 % 2 ^ (32 - 6)
      = (64 % 2 ^ 32) >>> 6 :=
  have hreach : ReachableOverflow 6 2 :=
    ReachableOverflow.step ⟨0, 0, [false, false, false], 4294967232, true, []⟩
      ReachableOverflow.init
  ⟨by decide,
   (hal_ticks_seam_invariant 6 (by decide) ⟨2, 0, [false, false, false], 64, true, []⟩
      hreach).1,
   (hal_ticks_seam_invariant 6 (by decide) ⟨2, 0, [false, false, false], 64, true, []⟩
      hreach).2.2⟩

/-- Arithmetic core of the carry rule, with the seam at bit `7 - E`. -/
theorem carry_arith (E o : Nat) (hE : E < 8) (hlt : o < 256) (hlow : o % 2 ^ (7 - E) = 0) :
    (o / 2 ^ (7 - E) % 2 = 1 →
      (o + 2 ^ (7 - E)) % 256 / 2 ^ (8 - E) = (o / 2 ^ (8 - E) + 1) % 2 ^ E) ∧
    (o / 2 ^ (7 - E) % 2 = 0 → (o + 2 ^ (7 - E)) % 256 / 2 ^ (8 - E) = o / 2 ^ (8 - E)) ∧
    (o + 0) % 256 / 2 ^ (8 - E) = o / 2 ^ (8 - E) := by
  interval_cases E <;> norm_num at hlow ⊢ <;> omega

/-- C18: for `0 < E < 8`, every overflow byte whose bits below the seam are
zero and every raw reading, the update adds 1 modulo `2 ^ E` to the upper `E`
bits `overflow >> (8 - E)` when the seam bit of `overflow` is 1 and bit 31 of
the reading is 0, and leaves the upper bits unchanged in the other three cases. -/
theorem overflow_carry_rule (E : Nat) (hE : 0 < E ∧ E < 8) (s : HalState)
    (hov : OverflowOK E s.overflow) :
    (hal_ticks E s).2.overflow >>> (8 - E)
      = if s.overflow.testBit (7 - E) = true ∧ (s.micros % 2 ^ 32).testBit 31 = false
        then (s.overflow >>> (8 - E) + 1) % 2 ^ E
        else s.overflow >>> (8 - E) := by
  obtain ⟨hlt, hlow⟩ := hov
  obtain ⟨h1, h0, hz⟩ := carry_arith E s.overflow hE.2 hlt hlow
  rw [hal_ticks_overflow_eq E hE.2 s, Nat.shiftRight_eq_div_pow, Nat.shiftRight_eq_div_pow]
  have hbit : s.overflow.testBit (7 - E) = decide (s.overflow / 2 ^ (7 - E) % 2 = 1) :=
    Nat.testBit_to_div_mod
  generalize (s.micros % 2 ^ 32).testBit 31 = b
  rcases Nat.mod_two_eq_zero_or_one (s.overflow / 2 ^ (7 - E)) with hq | hq
  · have hb : s.overflow.testBit (7 - E) = false := by rw [hbit, hq]; rfl
    rw [hb]
    cases b
    · rw [if_pos rfl, if_neg (by simp), hz]
    · rw [if_neg (by simp), if_neg (by simp), h0 hq]
  · have hb : s.overflow.testBit (7 - E) = true := by rw [hbit, hq]; rfl
    rw [hb]
    cases b
    · rw [if_neg (by simp), if_pos ⟨rfl, rfl⟩, h1 hq]
    · rw [if_pos rfl, if_neg (by simp), hz]

/-- Witness of C18: `E = 6`, `overflow = 2` (seam bit set) and a reading with
bit 31 clear: the upper bits go from 0 to 1. -/
theorem overflow_carry_rule_witness :
    (0 < 6 ∧ 6 < 8) ∧ OverflowOK 6 2 ∧
    (hal_ticks 6 ⟨2, 0, [false, false, false], 64, true, []⟩).2.overflow >>> (8 - 6)
      = if (2 : Nat).testBit (7 - 6) = true ∧ (64 % 2 ^ 32).testBit 31 = false
        then ((2 : Nat) >>> (8 - 6) + 1) % 2 ^ 6
        else (2 : Nat) >>> (8 - 6) :=
  ⟨by decide, by decide,
    overflow_carry_rule 6 (by decide) ⟨2, 0, [false, false, false], 64, true, []⟩ (by decide)⟩

/-- C13 as stated fails: with `E = 6`, `overflow = 0` and a reading with bit
31 set, `hal_checkTimer` leaves `overflow = 2`; the state is not the one
before the call. -/
theorem hal_checkTimer_changes_overflow :
    (hal_checkTimer 6 0 ⟨0, 0, [false, false, false], 2147483648, true, []⟩).2
      = ⟨2, 0, [false, false, false], 2147483648, true, []⟩ ∧
    ¬ (hal_checkTimer 6 0 ⟨0, 0, [false, false, false], 2147483648, true, []⟩).2
      = ⟨0, 0, [false, false, false], 2147483648, true, []⟩ := by
  decide

/-- C13, amended: for every state, raw reading and target, `hal_checkTimer`
changes nothing but the overflow byte, which it updates as `hal_ticks` does:
nesting counter, stored DIO states, raw counter and interrupt flag are as
before and no platform primitive is invoked (the trace is unchanged).  When
the seam bit of a byte-sized `overflow` already equals bit 31 of the reading
(`E < 8`), as on a second call at one reading, the whole state is unchanged. -/
theorem hal_checkTimer_frame (E : Nat) (targettime : Nat) (s : HalState) :
    (hal_checkTimer E targettime s).2 = { s with overflow := (hal_ticks E s).2.overflow } ∧
    (hal_checkTimer E targettime s).2.irqlevel = s.irqlevel ∧
    (hal_checkTimer E targettime s).2.dio_states = s.dio_states ∧
    (hal_checkTimer E targettime s).2.micros = s.micros ∧
    (hal_checkTimer E targettime s).2.irq_enabled = s.irq_enabled ∧
    (hal_checkTimer E targettime s).2.trace = s.trace ∧
    (E < 8 → s.overflow < 256 →
      (s.micros % 2 ^ 32).testBit 31 = s.overflow.testBit (7 - E) →
      (hal_checkTimer E targettime s).2 = s) ∧
    (E < 8 → (hal_checkTimer E targettime (hal_checkTimer E targettime s).2).2
      = (hal_checkTimer E targettime s).2) := by
  refine ⟨rfl, rfl, rfl, rfl, rfl, rfl, ?_, ?_⟩
  · intro hE hlt hseam
    have hov := hal_ticks_overflow_eq E hE s
    rw [if_pos hseam, Nat.add_zero, Nat.mod_eq_of_lt hlt] at hov
    show (hal_ticks E s).2 = s
    rw [hal_ticks_frame E s, hov]
  · intro hE
    show (hal_ticks E (hal_ticks E s).2).2 = (hal_ticks E s).2
    rw [hal_ticks_idem E hE s]

/-- Witness of the amended C13: at reading 64 with `overflow = 0` the seam
bit already matches and the state is unchanged. -/
theorem hal_checkTimer_frame_witness :
    (hal_checkTimer 6 600 ⟨0, 0, [false, false, false], 64, true, []⟩).2
      = ⟨0, 0, [false, false, false], 64, true, []⟩ :=
  (hal_checkTimer_frame 6 600 ⟨0, 0, [false, false, false], 64, true, []⟩).2.2.2.2.2.2.1
    (by decide) (by decide) (by decide)

/-! ## Slots of the poll pass -/

theorem getD_set_self_bool (l : List Bool) (i : Nat) (v : Bool) (h : i < l.length) :
    (l.set i v).getD i false = v := by
  simp [List.getD_eq_getElem?_getD, List.getElem?_set_self h]

theorem getD_set_ne_bool (l : List Bool) (i k : Nat) (v : Bool) (h : i ≠ k) :
    (l.set i v).getD k false = l.getD k false := by
  simp [List.getD_eq_getElem?_getD, List.getElem?_set_ne h]

/-- The calls of one slot: nothing for an unused slot; otherwise one
`digitalRead` of a pin that is not the sentinel, followed by the callback for
this slot exactly when the stored level was false and the level read is true. -/
theorem io_check_slot_calls (pins : lmic_pinmap) (read : Nat → Bool) (s : HalState) (i : Nat) :
    ∃ ext, (io_check_slot pins read s i).trace = s.trace ++ ext ∧
      (∀ c ∈ ext, (c = Call.digitalRead (pins.dio.getD i LMIC_UNUSED_PIN) ∧
          pins.dio.getD i LMIC_UNUSED_PIN ≠ LMIC_UNUSED_PIN) ∨ c = Call.radio_irq_handler i) ∧
      (pins.dio.getD i LMIC_UNUSED_PIN = LMIC_UNUSED_PIN → ext = []) ∧
      (pins.dio.getD i LMIC_UNUSED_PIN ≠ LMIC_UNUSED_PIN → i < s.dio_states.length →
        ext.count (Call.radio_irq_handler i)
          = if s.dio_states.getD i false = false ∧ read i = true then 1 else 0) := by
  unfold io_check_slot
  generalize pins.dio.getD i LMIC_UNUSED_PIN = p
  by_cases hu : p = LMIC_UNUSED_PIN
  · rw [if_pos hu]
    exact ⟨[], by simp, by simp, fun _ => rfl, fun h => absurd hu h⟩
  · rw [if_neg hu]
    dsimp only
    by_cases hne : s.dio_states.getD i false ≠ read i
    · rw [if_pos hne]
      by_cases hnew : (s.dio_states.set i (!s.dio_states.getD i false)).getD i false = true
      · rw [if_pos hnew]
        refine ⟨[Call.digitalRead p, Call.radio_irq_handler i], by simp, ?_,
          fun h => absurd h hu, ?_⟩
        · intro c hc
          simp only [List.mem_cons, List.mem_singleton, List.not_mem_nil, or_false] at hc
          rcases hc with rfl | rfl
          · exact Or.inl ⟨rfl, hu⟩
          · exact Or.inr rfl
        · intro _ hlen
          rw [getD_set_self_bool _ _ _ hlen] at hnew
          have hold : s.dio_states.getD i false = false := by simpa using hnew
          have hrd : read i = true := by
            rw [hold] at hne
            cases h : read i
            · exact absurd h.symm hne
            · rfl
          rw [if_pos ⟨hold, hrd⟩]
          simp
      · rw [if_neg hnew]
        refine ⟨[Call.digitalRead p], rfl, ?_, fun h => absurd h hu, ?_⟩
        · intro c hc
          simp only [List.mem_singleton] at hc
          exact Or.inl ⟨hc, hu⟩
        · intro _ hlen
          rw [getD_set_self_bool _ _ _ hlen] at hnew
          have hold : s.dio_states.getD i false = true := by simpa using hnew
          rw [if_neg (by rw [hold]; simp)]
          simp
    · rw [if_neg hne]
      refine ⟨[Call.digitalRead p], rfl, ?_, fun h => absurd h hu, ?_⟩
      · intro c hc
        simp only [List.mem_singleton] at hc
        exact Or.inl ⟨hc, hu⟩
      · intro _ _
        have heq : s.dio_states.getD i false = read i := not_not.mp hne
        have : ¬ (s.dio_states.getD i false = false ∧ read i = true) := by
          rw [heq]; cases read i <;> simp
        rw [if_neg this]
        simp

/-- The stored levels after one slot: other slots keep their level, an
unused slot changes nothing, a slot in use ends at the level just read. -/
theorem io_check_slot_states (pins : lmic_pinmap) (read : Nat → Bool) (s : HalState) (i : Nat) :
    (∀ k, k ≠ i → (io_check_slot pins read s i).dio_states.getD k false
      = s.dio_states.getD k false) ∧
    (io_check_slot pins read s i).dio_states.length = s.dio_states.length ∧
    (pins.dio.getD i LMIC_UNUSED_PIN = LMIC_UNUSED_PIN →
      (io_check_slot pins read s i).dio_states = s.dio_states) ∧
    (pins.dio.getD i LMIC_UNUSED_PIN ≠ LMIC_UNUSED_PIN → i < s.dio_states.length →
      (io_check_slot pins read s i).dio_states.getD i false = read i) := by
  unfold io_check_slot
  generalize pins.dio.getD i LMIC_UNUSED_PIN = p
  by_cases hu : p = LMIC_UNUSED_PIN
  · rw [if_pos hu]
    exact ⟨fun _ _ => rfl, rfl, fun _ => rfl, fun h => absurd hu h⟩
  · rw [if_neg hu]
    dsimp only
    by_cases hne : s.dio_states.getD i false ≠ read i
    · rw [if_pos hne]
      have hst : ∀ (t : List Call),
          (if (s.dio_states.set i (!s.dio_states.getD i false)).getD i false = true then
            ({ s with dio_states := s.dio_states.set i (!s.dio_states.getD i false),
                      trace := t ++ [Call.radio_irq_handler i] } : HalState)
           else { s with dio_states := s.dio_states.set i (!s.dio_states.getD i false),
                         trace := t }).dio_states
            = s.dio_states.set i (!s.dio_states.getD i false) := by
        intro t; split_ifs <;> rfl
      rw [hst]
      refine ⟨fun k hk => getD_set_ne_bool _ _ _ _ (Ne.symm hk), List.length_set _ _ _,
        fun h => absurd h hu, ?_⟩
      intro _ hlen
      rw [getD_set_self_bool _ _ _ hlen]
      cases h1 : s.dio_states.getD i false <;> cases h2 : read i <;> simp_all
    · rw [if_neg hne]
      exact ⟨fun _ _ => rfl, rfl, fun h => absurd h hu, fun _ _ => not_not.mp hne⟩

theorem count_handler_other (pins : lmic_pinmap) (i k : Nat) (hk : k ≠ i) (ext : List Call)
    (h : ∀ c ∈ ext, (c = Call.digitalRead (pins.dio.getD k LMIC_UNUSED_PIN) ∧
          pins.dio.getD k LMIC_UNUSED_PIN ≠ LMIC_UNUSED_PIN) ∨ c = Call.radio_irq_handler k) :
    ext.count (Call.radio_irq_handler i) = 0 := by
  rw [List.count_eq_zero]
  intro hmem
  rcases h _ hmem with ⟨h1, _⟩ | h1
  · exact Call.noConfusion h1
  · injection h1 with h2
    exact hk h2.symm

theorem usesPin_of_slot_call (pins : lmic_pinmap) (k : Nat) (c : Call)
    (h : (c = Call.digitalRead (pins.dio.getD k LMIC_UNUSED_PIN) ∧
          pins.dio.getD k LMIC_UNUSED_PIN ≠ LMIC_UNUSED_PIN) ∨ c = Call.radio_irq_handler k) :
    c.usesPin LMIC_UNUSED_PIN = false := by
  rcases h with ⟨rfl, hne⟩ | rfl
  · show (pins.dio.getD k LMIC_UNUSED_PIN == LMIC_UNUSED_PIN) = false
    exact beq_false_of_ne hne
  · rfl

/-- One poll pass seen from slot `i`: the calls it adds never touch the
sentinel pin; an unused slot gets no callback and keeps its stored level; a
slot in use gets the callback exactly on a change from false to true and ends
at the level read. -/
theorem hal_io_check_slot (pins : lmic_pinmap) (read : Nat → Bool) (s : HalState) (i : Nat)
    (hi : i < NUM_DIO) :
    ∃ ext, (hal_io_check pins read s).trace = s.trace ++ ext ∧
      (∀ c ∈ ext, c.usesPin LMIC_UNUSED_PIN = false) ∧
      (hal_io_check pins read s).dio_states.length = s.dio_states.length ∧
      (pins.dio.getD i LMIC_UNUSED_PIN = LMIC_UNUSED_PIN →
        ext.count (Call.radio_irq_handler i) = 0 ∧
        (hal_io_check pins read s).dio_states.getD i false = s.dio_states.getD i false) ∧
      (pins.dio.getD i LMIC_UNUSED_PIN ≠ LMIC_UNUSED_PIN → i < s.dio_states.length →
        ext.count (Call.radio_irq_handler i)
          = (if s.dio_states.getD i false = false ∧ read i = true then 1 else 0) ∧
        (hal_io_check pins read s).dio_states.getD i false = read i) := by
  rw [hal_io_check_unfold]
  obtain ⟨x0, t0, m0, u0, c0⟩ := io_check_slot_calls pins read s 0
  obtain ⟨x1, t1, m1, u1, c1⟩ := io_check_slot_calls pins read (io_check_slot pins read s 0) 1
  obtain ⟨x2, t2, m2, u2, c2⟩ := io_check_slot_calls pins read
    (io_check_slot pins read (io_check_slot pins read s 0) 1) 2
  obtain ⟨k0, l0, n0, r0⟩ := io_check_slot_states pins read s 0
  obtain ⟨k1, l1, n1, r1⟩ := io_check_slot_states pins read (io_check_slot pins read s 0) 1
  obtain ⟨k2, l2, n2, r2⟩ := io_check_slot_states pins read
    (io_check_slot pins read (io_check_slot pins read s 0) 1) 2
  refine ⟨x0 ++ x1 ++ x2, by rw [t2, t1, t0]; simp [List.append_assoc], ?_,
    by rw [l2, l1, l0], ?_, ?_⟩
  · intro c hc
    simp only [List.mem_append] at hc
    rcases hc with (hc | hc) | hc
    · exact usesPin_of_slot_call pins 0 c (m0 c hc)
    · exact usesPin_of_slot_call pins 1 c (m1 c hc)
    · exact usesPin_of_slot_call pins 2 c (m2 c hc)
  · intro hun
    have hi3 : i < 3 := hi
    rw [List.count_append, List.count_append]
    interval_cases i
    · rw [u0 hun, count_handler_other pins 0 1 (by decide) x1 m1,
        count_handler_other pins 0 2 (by decide) x2 m2]
      exact ⟨rfl, by rw [k2 0 (by decide), k1 0 (by decide), n0 hun]⟩
    · rw [u1 hun, count_handler_other pins 1 0 (by decide) x0 m0,
        count_handler_other pins 1 2 (by decide) x2 m2]
      exact ⟨rfl, by rw [k2 1 (by decide), n1 hun, k0 1 (by decide)]⟩
    · rw [u2 hun, count_handler_other pins 2 0 (by decide) x0 m0,
        count_handler_other pins 2 1 (by decide) x1 m1]
      exact ⟨rfl, by rw [n2 hun, k1 2 (by decide), k0 2 (by decide)]⟩
  · intro hus hlen
    have hi3 : i < 3 := hi
    rw [List.count_append, List.count_append]
    interval_cases i
    · rw [c0 hus hlen, count_handler_other pins 0 1 (by decide) x1 m1,
        count_handler_other pins 0 2 (by decide) x2 m2]
      exact ⟨rfl, by rw [k2 0 (by decide), k1 0 (by decide), r0 hus hlen]⟩
    · rw [c1 hus (by rw [l0]; exact hlen), count_handler_other pins 1 0 (by decide) x0 m0,
        count_handler_other pins 1 2 (by decide) x2 m2, k0 1 (by decide)]
      exact ⟨by simp, by rw [k2 1 (by decide), r1 hus (by rw [l0]; exact hlen)]⟩
    · rw [c2 hus (by rw [l1, l0]; exact hlen), count_handler_other pins 2 0 (by decide) x0 m0,
        count_handler_other pins 2 1 (by decide) x1 m1, k1 2 (by decide), k0 2 (by decide)]
      exact ⟨by simp, r2 hus (by rw [l1, l0]; exact hlen)⟩

/-! ## Claims about the poll pass -/

theorem passCalls_eq (pins : lmic_pinmap) (reads : Nat → Nat → Bool) (s : HalState) (j : Nat)
    (ext : List Call)
    (h : (hal_io_check pins (reads j) (pollN pins reads j s)).trace
      = (pollN pins reads j s).trace ++ ext) :
    passCalls pins reads s j = ext := by
  unfold passCalls
  show ((hal_io_check pins (reads j) (pollN pins reads j s)).trace).drop _ = ext
  rw [h, List.drop_left]

/-- Between passes the stored level of a slot in use is the level read by
the previous pass, `false` before the first one. -/
theorem pollN_stored_level (pins : lmic_pinmap) (reads : Nat → Nat → Bool) (s : HalState)
    (hs : s.dio_states = [false, false, false]) (i : Nat) (hi : i < NUM_DIO)
    (hused : pins.dio.getD i LMIC_UNUSED_PIN ≠ LMIC_UNUSED_PIN) (j : Nat) :
    (pollN pins reads j s).dio_states.length = NUM_DIO ∧
    (pollN pins reads j s).dio_states.getD i false = previousLevel reads j i := by
  induction j with
  | zero =>
    show s.dio_states.length = NUM_DIO ∧ s.dio_states.getD i false = false
    rw [hs]
    have hi3 : i < 3 := hi
    refine ⟨rfl, ?_⟩
    interval_cases i <;> rfl
  | succ j ih =>
    obtain ⟨ext, _, _, hlen, _, hus⟩ := hal_io_check_slot pins (reads j) (pollN pins reads j s) i hi
    show (hal_io_check pins (reads j) (pollN pins reads j s)).dio_states.length = NUM_DIO ∧
      (hal_io_check pins (reads j) (pollN pins reads j s)).dio_states.getD i false = reads j i
    exact ⟨by rw [hlen, ih.1], (hus hused (by rw [ih.1]; exact hi)).2⟩

/-- C11: starting with all stored DIO states false, for every pin map, every
sequence of poll passes with arbitrary levels read and every slot `i` in use:
pass `j` invokes `radio_irq_handler(i)` once when the level read at pass `j`
is true and the level read at pass `j - 1` (false for `j = 0`) was false, and
not at all otherwise, in particular not on a falling transition; after the
pass the stored state of the slot is the level just read.  For the levels
false, false, true, true, false, true the callback fires at passes 2 and 5 only. -/
theorem rising_edge_callbacks (pins : lmic_pinmap) (reads : Nat → Nat → Bool) (s : HalState)
    (hs : s.dio_states = [false, false, false]) (i : Nat) (hi : i < NUM_DIO)
    (hused : pins.dio.getD i LMIC_UNUSED_PIN ≠ LMIC_UNUSED_PIN) :
    (∀ j,
      (passCalls pins reads s j).count (Call.radio_irq_handler i)
        = (if reads j i = true ∧ previousLevel reads j i = false then 1 else 0) ∧
      (reads j i = false → (passCalls pins reads s j).count (Call.radio_irq_handler i) = 0) ∧
      (pollN pins reads (j + 1) s).dio_states.getD i false = reads j i) ∧
    ((∀ j, j < 6 → reads j i = [false, false, true, true, false, true].getD j false) →
      (List.range 6).map (fun j => (passCalls pins reads s j).count (Call.radio_irq_handler i))
        = [0, 0, 1, 0, 0, 1]) := by
  have hpass : ∀ j, (passCalls pins reads s j).count (Call.radio_irq_handler i)
      = (if reads j i = true ∧ previousLevel reads j i = false then 1 else 0) := by
    intro j
    obtain ⟨hlen, hprev⟩ := pollN_stored_level pins reads s hs i hi hused j
    obtain ⟨ext, htr, _, _, _, hus⟩ :=
      hal_io_check_slot pins (reads j) (pollN pins reads j s) i hi
    rw [passCalls_eq pins reads s j ext htr, (hus hused (by rw [hlen]; exact hi)).1, hprev]
    by_cases h1 : reads j i = true <;> by_cases h2 : previousLevel reads j i = false <;>
      simp [h1, h2]
  refine ⟨fun j => ⟨hpass j, ?_, (pollN_stored_level pins reads s hs i hi hused (j + 1)).2⟩, ?_⟩
  · intro hfalse
    rw [hpass j, if_neg (by rw [hfalse]; simp)]
  · intro hseq
    have hr : List.range 6 = [0, 1, 2, 3, 4, 5] := rfl
    rw [hr]
    have h0 : reads 0 i = false := hseq 0 (by decide)
    have h1 : reads 1 i = false := hseq 1 (by decide)
    have h2 : reads 2 i = true := hseq 2 (by decide)
    have h3 : reads 3 i = true := hseq 3 (by decide)
    have h4 : reads 4 i = false := hseq 4 (by decide)
    have h5 : reads 5 i = true := hseq 5 (by decide)
    simp [List.map, hpass, previousLevel, h0, h1, h2, h3, h4, h5]

/-- Witness of C11: slot 0 on pin 2 reading false, false, true, true, false, true. -/
theorem rising_edge_callbacks_witness :
    (List.range 6).map (fun j =>
      (passCalls ⟨10, 255, 9, [2, 3, 255]⟩
        (fun m _ => [false, false, true, true, false, true].getD m false)
        ⟨0, 0, [false, false, false], 0, true, []⟩ j).count (Call.radio_irq_handler 0))
      = [0, 0, 1, 0, 0, 1] :=
  (rising_edge_callbacks ⟨10, 255, 9, [2, 3, 255]⟩
    (fun m _ => [false, false, true, true, false, true].getD m false)
    ⟨0, 0, [false, false, false], 0, true, []⟩ rfl 0 (by decide) (by decide)).2
    (fun _ _ => rfl)

/-- C12: for every slot `i` whose pin is the sentinel `0xff` and every
sequence of poll passes, whatever the levels: no pass calls `digitalRead` on
the sentinel pin or reads a slot that is not in use, no pass invokes
`radio_irq_handler(i)`, and the stored state of slot `i` stays what it was
(false from the initial state). -/
theorem unused_slot_untouched (pins : lmic_pinmap) (reads : Nat → Nat → Bool) (s : HalState)
    (i : Nat) (hi : i < NUM_DIO) (hun : pins.dio.getD i LMIC_UNUSED_PIN = LMIC_UNUSED_PIN) :
    ∀ j,
      (passCalls pins reads s j).count (Call.digitalRead LMIC_UNUSED_PIN) = 0 ∧
      (passCalls pins reads s j).countP Call.isDigitalRead
        = ((List.range NUM_DIO).filter
            (fun k => pins.dio.getD k LMIC_UNUSED_PIN ≠ LMIC_UNUSED_PIN)).length ∧
      (passCalls pins reads s j).count (Call.radio_irq_handler i) = 0 ∧
      (pollN pins reads j s).dio_states.getD i false = s.dio_states.getD i false ∧
      (s.dio_states = [false, false, false] →
        (pollN pins reads j s).dio_states.getD i false = false) := by
  have hkeep : ∀ j, (pollN pins reads j s).dio_states.getD i false
      = s.dio_states.getD i false := by
    intro j
    induction j with
    | zero => rfl
    | succ j ih =>
      obtain ⟨_, _, _, _, hu, _⟩ := hal_io_check_slot pins (reads j) (pollN pins reads j s) i hi
      show (hal_io_check pins (reads j) (pollN pins reads j s)).dio_states.getD i false = _
      rw [(hu hun).2, ih]
  intro j
  obtain ⟨ext, htr, hpin, _, hu, _⟩ :=
    hal_io_check_slot pins (reads j) (pollN pins reads j s) i hi
  obtain ⟨_, _, ext2, htr2, _, hreads⟩ := hal_io_check_frame pins (reads j) (pollN pins reads j s)
  have hsame : ext2 = ext := List.append_cancel_left (htr2.symm.trans htr)
  rw [passCalls_eq pins reads s j ext htr]
  refine ⟨?_, by rw [← hsame]; exact hreads, (hu hun).1, hkeep j, ?_⟩
  · rw [List.count_eq_zero]
    intro hmem
    have := hpin _ hmem
    simp [Call.usesPin] at this
  · intro hs
    rw [hkeep j, hs]
    have hi3 : i < 3 := hi
    interval_cases i <;> rfl

/-- Witness of C12: slot 2 is unused; after three passes that would read
true everywhere its stored state is still false. -/
theorem unused_slot_untouched_witness :
    (passCalls ⟨10, 255, 9, [2, 3, 255]⟩ (fun _ _ => true)
      ⟨0, 0, [false, false, false], 0, true, []⟩ 2).count (Call.radio_irq_handler 2) = 0 ∧
    (pollN ⟨10, 255, 9, [2, 3, 255]⟩ (fun _ _ => true) 3
      ⟨0, 0, [false, false, false], 0, true, []⟩).dio_states.getD 2 false = false :=
  ⟨(unused_slot_untouched ⟨10, 255, 9, [2, 3, 255]⟩ (fun _ _ => true)
      ⟨0, 0, [false, false, false], 0, true, []⟩ 2 (by decide) (by decide) 2).2.2.1,
   (unused_slot_untouched ⟨10, 255, 9, [2, 3, 255]⟩ (fun _ _ => true)
      ⟨0, 0, [false, false, false], 0, true, []⟩ 2 (by decide) (by decide) 3).2.2.2.2 rfl⟩

/-! ## Initialisation and pin drivers -/

theorem ASSERT_trace (cond : Bool) (s : HalState) :
    (ASSERT cond s).trace = s.trace ++ (if cond then [] else [Call.hal_failed]) := by
  unfold ASSERT hal_failed
  cases cond <;> simp

theorem guarded_pinMode_trace (cond : Bool) (pin mode : Nat) (s : HalState) :
    (if cond then pinMode pin mode s else s).trace
      = s.trace ++ (if cond then [Call.pinMode pin mode] else []) := by
  unfold pinMode
  cases cond <;> simp

/-- The trace of `hal_init`: one `hal_failed` per violated assertion, then the
pin set-up, each optional pin guarded by its test, then `SPI.begin()`. -/
theorem hal_init_trace (pins : lmic_pinmap) (s : HalState) :
    (hal_init pins s).trace = s.trace
      ++ ((if pins.nss != LMIC_UNUSED_PIN then [] else [Call.hal_failed])
        ++ (if pins.dio.getD 0 LMIC_UNUSED_PIN != LMIC_UNUSED_PIN then []
            else [Call.hal_failed])
        ++ (if (pins.dio.getD 1 LMIC_UNUSED_PIN != LMIC_UNUSED_PIN
              || pins.dio.getD 2 LMIC_UNUSED_PIN != LMIC_UNUSED_PIN) then []
            else [Call.hal_failed]))
      ++ ([Call.pinMode pins.nss OUTPUT]
        ++ (if pins.rxtx != LMIC_UNUSED_PIN then [Call.pinMode pins.rxtx OUTPUT] else [])
        ++ (if pins.rst != LMIC_UNUSED_PIN then [Call.pinMode pins.rst OUTPUT] else [])
        ++ [Call.pinMode (pins.dio.getD 0 LMIC_UNUSED_PIN) INPUT]
        ++ (if pins.dio.getD 1 LMIC_UNUSED_PIN != LMIC_UNUSED_PIN
            then [Call.pinMode (pins.dio.getD 1 LMIC_UNUSED_PIN) INPUT] else [])
        ++ (if pins.dio.getD 2 LMIC_UNUSED_PIN != LMIC_UNUSED_PIN
            then [Call.pinMode (pins.dio.getD 2 LMIC_UNUSED_PIN) INPUT] else [])
        ++ [Call.SPI_begin]) := by
  unfold hal_init
  generalize pins.dio.getD 0 LMIC_UNUSED_PIN = d0
  generalize pins.dio.getD 1 LMIC_UNUSED_PIN = d1
  generalize pins.dio.getD 2 LMIC_UNUSED_PIN = d2
  dsimp only
  show ((if (d2 != LMIC_UNUSED_PIN) = true then pinMode d2 INPUT _ else _).trace
    ++ [Call.SPI_begin]) = _
  rw [guarded_pinMode_trace, guarded_pinMode_trace]
  show ((if (pins.rst != LMIC_UNUSED_PIN) = true then pinMode pins.rst OUTPUT _ else _).trace
    ++ [Call.pinMode d0 INPUT] ++ _ ++ _ ++ _) = _
  rw [guarded_pinMode_trace, guarded_pinMode_trace]
  show ((ASSERT _ _).trace ++ [Call.pinMode pins.nss OUTPUT] ++ _ ++ _ ++ _ ++ _ ++ _ ++ _) = _
  rw [ASSERT_trace, ASSERT_trace, ASSERT_trace]
  simp only [List.append_assoc]

theorem count_failed_guard (cond : Bool) (c : Call) (hc : c ≠ Call.hal_failed) :
    (if cond then [c] else []).count Call.hal_failed = 0 := by
  cases cond
  · rfl
  · simp [List.count_cons, hc]

theorem count_failed_assert (cond : Bool) :
    (if cond then [] else [Call.hal_failed]).count Call.hal_failed = if cond then 0 else 1 := by
  cases cond <;> rfl

/-- C15: `hal_init` invokes `hal_failed` exactly when a mandatory-pin
precondition is violated: `nss` is the sentinel `0xff`, or `dio[0]` is, or
both `dio[1]` and `dio[2]` are.  With `nss` and `dio[0]` set and one of
`dio[1]`, `dio[2]` set, the hook is not invoked. -/
theorem hal_init_failed_iff (pins : lmic_pinmap) (s : HalState) :
    (s.trace.count Call.hal_failed < (hal_init pins s).trace.count Call.hal_failed ↔
      (pins.nss = LMIC_UNUSED_PIN ∨ pins.dio.getD 0 LMIC_UNUSED_PIN = LMIC_UNUSED_PIN ∨
        (pins.dio.getD 1 LMIC_UNUSED_PIN = LMIC_UNUSED_PIN ∧
          pins.dio.getD 2 LMIC_UNUSED_PIN = LMIC_UNUSED_PIN))) ∧
    (PinsValid pins →
      (hal_init pins s).trace.count Call.hal_failed = s.trace.count Call.hal_failed) := by
  have hcount : (hal_init pins s).trace.count Call.hal_failed
      = s.trace.count Call.hal_failed
        + ((if pins.nss != LMIC_UNUSED_PIN then 0 else 1)
          + (if pins.dio.getD 0 LMIC_UNUSED_PIN != LMIC_UNUSED_PIN then 0 else 1)
          + (if (pins.dio.getD 1 LMIC_UNUSED_PIN != LMIC_UNUSED_PIN
              || pins.dio.getD 2 LMIC_UNUSED_PIN != LMIC_UNUSED_PIN) then 0 else 1)) := by
    rw [hal_init_trace]
    simp only [List.count_append, count_failed_assert]
    rw [count_failed_guard _ _ (by simp), count_failed_guard _ _ (by simp),
      count_failed_guard _ _ (by simp), count_failed_guard _ _ (by simp)]
    simp [List.count_cons]
  rw [hcount]
  unfold PinsValid
  generalize pins.dio.getD 0 LMIC_UNUSED_PIN = d0
  generalize pins.dio.getD 1 LMIC_UNUSED_PIN = d1
  generalize pins.dio.getD 2 LMIC_UNUSED_PIN = d2
  by_cases h0 : pins.nss = LMIC_UNUSED_PIN <;> by_cases h1 : d0 = LMIC_UNUSED_PIN <;>
    by_cases h2 : d1 = LMIC_UNUSED_PIN <;> by_cases h3 : d2 = LMIC_UNUSED_PIN <;>
    simp [h0, h1, h2, h3]

/-- C16, evaluated on the code: the claim is that a violated precondition is
reported once through `hal_failed` and that nothing follows.  With `nss` unset
`hal_init` calls the hook once and then goes on to `pinMode(0xff, OUTPUT)`,
the other `pinMode` calls and `SPI.begin()`; with `nss` and `dio[0]` both
unset the hook is called twice. -/
theorem hal_init_continues_after_failed :
    ¬ PinsValid ⟨255, 255, 9, [2, 3, 255]⟩ ∧
    (hal_init ⟨255, 255, 9, [2, 3, 255]⟩ ⟨0, 0, [false, false, false], 0, true, []⟩).trace
      = [Call.hal_failed, Call.pinMode 255 OUTPUT, Call.pinMode 9 OUTPUT, Call.pinMode 2 INPUT,
          Call.pinMode 3 INPUT, Call.SPI_begin] ∧
    (hal_init ⟨255, 255, 9, [255, 3, 255]⟩ ⟨0, 0, [false, false, false], 0, true, []⟩).trace
      = [Call.hal_failed, Call.hal_failed, Call.pinMode 255 OUTPUT, Call.pinMode 9 OUTPUT,
          Call.pinMode 255 INPUT, Call.pinMode 3 INPUT, Call.SPI_begin] := by
  decide

/-- Witness of C15: a valid pin map (LoRa wiring without `dio[2]`). -/
theorem hal_init_failed_iff_witness :
    PinsValid ⟨10, 255, 9, [2, 3, 255]⟩ ∧
    (hal_init ⟨10, 255, 9, [2, 3, 255]⟩
      ⟨0, 0, [false, false, false], 0, true, []⟩).trace.count Call.hal_failed
      = ([] : List Call).count Call.hal_failed :=
  ⟨by decide, (hal_init_failed_iff ⟨10, 255, 9, [2, 3, 255]⟩
    ⟨0, 0, [false, false, false], 0, true, []⟩).2 (by decide)⟩

theorem chunk_ge (E : Nat) (hE : E < 8) : 125 ≤ 16000 / US_PER_OSTICK E := by
  unfold US_PER_OSTICK
  interval_cases E <;> decide

/-- C19: for `0 < E < 8`, every target and every state `hal_waitUntil`
returns; each loop iteration takes `16000 / 2 ^ E >= 125` ticks off `delta`,
so there are at most `delta / 125` of them; every argument passed to
`delayMicroseconds` lies in `1 .. 16000`, below the limit 16383, and the
product `delta * 2 ^ E` it is computed from is at most 16000, far inside the
range of `s4_t`. -/
theorem hal_waitUntil_terminates (E : Nat) (hE : 0 < E ∧ E < 8) (t : Nat) (s : HalState) :
    125 ≤ 16000 / US_PER_OSTICK E ∧
    ∃ s1 ext, hal_waitUntil E t s = some s1 ∧ s1.trace = s.trace ++ ext ∧
      ext.count (Call.delay 16) * 125 ≤ (delta_time E t s).1.toNat ∧
      (∀ us, Call.delayMicroseconds us ∈ ext → 1 ≤ us ∧ us ≤ 16000 ∧ us ≤ 16383) ∧
      (0 < (delta_time E t s).1 →
        0 < specFineSleep E (delta_time E t s).1 ∧
        specFineSleep E (delta_time E t s).1 ≤ 16000 ∧
        specFineSleep E (delta_time E t s).1 < 2 ^ 31 ∧
        Call.delayMicroseconds (specFineSleep E (delta_time E t s).1).toNat ∈ ext) := by
  refine ⟨chunk_ge E hE.2, ?_⟩
  by_cases hd : (delta_time E t s).1 ≤ 0
  · refine ⟨_, [], hal_waitUntil_past E t s hE.2 hd, by rw [List.append_nil]; rfl, by simp,
      by simp, fun h => absurd h (by omega)⟩
  · have hd : 0 < (delta_time E t s).1 := by omega
    obtain ⟨hrun, hpos, hsum⟩ := hal_waitUntil_future_spec E hE.2 t s hd
    obtain ⟨hlb, hub⟩ := specCoarseSleeps_bounds E hE.2 _ hd
    have hchunk : (125 : Int) ≤ specChunk E := by
      rw [specChunk_eq]; exact_mod_cast chunk_ge E hE.2
    have hn0 : (0 : Int) ≤ (specCoarseSleeps E (delta_time E t s).1 : Int) :=
      Int.ofNat_nonneg _
    have hfine_le : specFineSleep E (delta_time E t s).1 ≤ 16000 := by
      have h2E : (0 : Int) < 2 ^ E := by positivity
      have hmul : specChunk E * 2 ^ E = 16000 := by
        rw [specChunk_eq]
        have := (chunk_facts E hE.2).2
        unfold US_PER_OSTICK at this ⊢
        exact_mod_cast this
      have hrem : (delta_time E t s).1
          - (specCoarseSleeps E (delta_time E t s).1 : Int) * specChunk E ≤ specChunk E := by
        linarith [mul_comm (specChunk E) (specCoarseSleeps E (delta_time E t s).1 : Int)]
      unfold specFineSleep
      calc ((delta_time E t s).1
              - (specCoarseSleeps E (delta_time E t s).1 : Int) * specChunk E) * 2 ^ E
          ≤ specChunk E * 2 ^ E := mul_le_mul_of_nonneg_right hrem h2E.le
        _ = 16000 := hmul
    have hiter : specCoarseSleeps E (delta_time E t s).1 * 125
        ≤ (delta_time E t s).1.toNat := by
      have h1 : (125 : Int) * (specCoarseSleeps E (delta_time E t s).1 : Int)
          ≤ specChunk E * (specCoarseSleeps E (delta_time E t s).1 : Int) :=
        mul_le_mul_of_nonneg_right hchunk hn0
      omega
    refine ⟨_, List.replicate (specCoarseSleeps E (delta_time E t s).1) (Call.delay 16)
        ++ [Call.delayMicroseconds (specFineSleep E (delta_time E t s).1).toNat], hrun, ?_, ?_,
      ?_, fun _ => ⟨hpos, hfine_le, by omega, by simp⟩⟩
    · rw [delayMicroseconds_trace, iterate_delay_trace, hal_ticks_trace, List.append_assoc]
    · rw [List.count_append, List.count_replicate_self]
      simpa using hiter
    · intro us hus
      rw [List.mem_append, List.mem_replicate, List.mem_singleton] at hus
      rcases hus with ⟨_, h⟩ | h
      · exact Call.noConfusion h
      · injection h with h
        omega

/-- Witness of C19: `E = 6`, reading 640, target tick 600. -/
theorem hal_waitUntil_terminates_witness :
    (0 < 6 ∧ 6 < 8) ∧
    ∃ s1 ext, hal_waitUntil 6 600 ⟨0, 0, [false, false, false], 640, true, []⟩ = some s1 ∧
      s1.trace = [] ++ ext ∧
      ∀ us, Call.delayMicroseconds us ∈ ext → 1 ≤ us ∧ us ≤ 16000 ∧ us ≤ 16383 :=
  ⟨by decide,
    match (hal_waitUntil_terminates 6 (by decide) 600
      ⟨0, 0, [false, false, false], 640, true, []⟩).2 with
    | ⟨s1, ext, h1, h2, _, h4, _⟩ => ⟨s1, ext, h1, h2, h4⟩⟩

theorem mem_guard (cond : Bool) (x c : Call) (h : c ∈ (if cond then [x] else [])) :
    cond = true ∧ c = x := by
  cases cond
  · simp at h
  · simpa using h

theorem mem_assert (cond : Bool) (c : Call)
    (h : c ∈ (if cond then [] else [Call.hal_failed])) : c = Call.hal_failed := by
  cases cond
  · simpa using h
  · simp at h

theorem usesPin_pinMode (p m : Nat) (h : p ≠ LMIC_UNUSED_PIN) :
    (Call.pinMode p m).usesPin LMIC_UNUSED_PIN = false :=
  beq_false_of_ne h

theorem usesPin_digitalWrite (p v : Nat) (h : p ≠ LMIC_UNUSED_PIN) :
    (Call.digitalWrite p v).usesPin LMIC_UNUSED_PIN = false :=
  beq_false_of_ne h

/-- C20: for every pin map that satisfies the three preconditions of
`hal_init` and every argument, none of the calls issued by `hal_init`,
`hal_pin_rxtx`, `hal_pin_rst` and `hal_io_check` is a `pinMode`,
`digitalWrite` or `digitalRead` on pin `0xff`; `hal_pin_rxtx` and
`hal_pin_rst` change nothing at all when their pin is unused. -/
theorem unused_pin_never_driven (pins : lmic_pinmap) (hvalid : PinsValid pins) (val : Nat)
    (read : Nat → Bool) (s : HalState) :
    (∃ ext, (hal_init pins s).trace = s.trace ++ ext ∧
      ∀ c ∈ ext, c.usesPin LMIC_UNUSED_PIN = false) ∧
    (∃ ext, (hal_pin_rxtx pins val s).trace = s.trace ++ ext ∧
      ∀ c ∈ ext, c.usesPin LMIC_UNUSED_PIN = false) ∧
    (∃ ext, (hal_pin_rst pins val s).trace = s.trace ++ ext ∧
      ∀ c ∈ ext, c.usesPin LMIC_UNUSED_PIN = false) ∧
    (∃ ext, (hal_io_check pins read s).trace = s.trace ++ ext ∧
      ∀ c ∈ ext, c.usesPin LMIC_UNUSED_PIN = false) ∧
    (pins.rxtx = LMIC_UNUSED_PIN → hal_pin_rxtx pins val s = s) ∧
    (pins.rst = LMIC_UNUSED_PIN → hal_pin_rst pins val s = s) := by
  obtain ⟨hnss, hd0, _⟩ := hvalid
  refine ⟨?_, ?_, ?_, ?_, ?_, ?_⟩
  · refine ⟨_, by rw [hal_init_trace, List.append_assoc], ?_⟩
    intro c hc
    simp only [List.mem_append, List.mem_singleton] at hc
    rcases hc with ((hc | hc) | hc) | hc
    · rw [mem_assert _ c hc]; rfl
    · rw [mem_assert _ c hc]; rfl
    · rw [mem_assert _ c hc]; rfl
    · rcases hc with (((((hc | hc) | hc) | hc) | hc) | hc) | hc
      · rw [hc]; exact usesPin_pinMode _ _ hnss
      · obtain ⟨hb, rfl⟩ := mem_guard _ _ c hc
        exact usesPin_pinMode _ _ (bne_iff_ne.mp hb)
      · obtain ⟨hb, rfl⟩ := mem_guard _ _ c hc
        exact usesPin_pinMode _ _ (bne_iff_ne.mp hb)
      · rw [hc]; exact usesPin_pinMode _ _ hd0
      · obtain ⟨hb, rfl⟩ := mem_guard _ _ c hc
        exact usesPin_pinMode _ _ (bne_iff_ne.mp hb)
      · obtain ⟨hb, rfl⟩ := mem_guard _ _ c hc
        exact usesPin_pinMode _ _ (bne_iff_ne.mp hb)
      · rw [hc]; rfl
  · unfold hal_pin_rxtx
    by_cases h : (pins.rxtx != LMIC_UNUSED_PIN) = true
    · rw [if_pos h]
      refine ⟨[Call.digitalWrite pins.rxtx val], rfl, ?_⟩
      intro c hc
      rw [List.mem_singleton] at hc
      rw [hc]
      exact usesPin_digitalWrite _ _ (bne_iff_ne.mp h)
    · rw [if_neg h]
      exact ⟨[], by simp, by simp⟩
  · unfold hal_pin_rst
    by_cases h : (pins.rst == LMIC_UNUSED_PIN) = true
    · rw [if_pos h]
      exact ⟨[], by simp, by simp⟩
    · rw [if_neg h]
      have hne : pins.rst ≠ LMIC_UNUSED_PIN := fun he => h (beq_iff_eq.mpr he)
      by_cases hv : (val == 0 || val == 1) = true
      · rw [if_pos hv]
        refine ⟨[Call.pinMode pins.rst OUTPUT, Call.digitalWrite pins.rst val], ?_, ?_⟩
        · show s.trace ++ [Call.pinMode pins.rst OUTPUT] ++ [Call.digitalWrite pins.rst val] = _
          simp
        · intro c hc
          simp only [List.mem_cons, List.mem_singleton, List.not_mem_nil, or_false] at hc
          rcases hc with rfl | rfl
          · exact usesPin_pinMode _ _ hne
          · exact usesPin_digitalWrite _ _ hne
      · rw [if_neg hv]
        refine ⟨[Call.pinMode pins.rst INPUT], rfl, ?_⟩
        intro c hc
        rw [List.mem_singleton] at hc
        rw [hc]
        exact usesPin_pinMode _ _ hne
  · obtain ⟨ext, htr, hpin, _⟩ := hal_io_check_slot pins read s 0 (by decide)
    exact ⟨ext, htr, hpin⟩
  · intro h
    unfold hal_pin_rxtx
    rw [if_neg (by rw [h]; decide)]
  · intro h
    unfold hal_pin_rst
    rw [if_pos (by rw [h]; decide)]

/-- Witness of C20: a valid pin map without RX/TX switch; `hal_pin_rxtx`
leaves the state alone. -/
theorem unused_pin_never_driven_witness :
    PinsValid ⟨10, 255, 9, [2, 3, 255]⟩ ∧
    hal_pin_rxtx ⟨10, 255, 9, [2, 3, 255]⟩ 1 ⟨0, 0, [false, false, false], 0, true, []⟩
      = ⟨0, 0, [false, false, false], 0, true, []⟩ :=
  ⟨by decide, (unused_pin_never_driven ⟨10, 255, 9, [2, 3, 255]⟩ (by decide) 1 (fun _ => true)
    ⟨0, 0, [false, false, false], 0, true, []⟩).2.2.2.2.1 rfl⟩

end Hal
